import Mathlib

/-!
Verification of the uir-framework orchestration core.

Shallow embedding of the aggregator, router status logic, circuit breaker,
cache layer, provider manager, rate limiter and mock spell checker, with
theorems settling the specification claims.

Python floats are modelled as exact rationals; `hashlib.md5` digests are
modelled by an injective stand-in (the claims depend only on digest
equality, which coincides with string equality absent collisions).
-/

/-- `SearchResult` (src/uir/models.py).  Dict-valued metadata is modelled as
a string map; `score` is a Python float modelled as an exact rational. -/
structure SearchResult where
  id : String
  title : Option String := none
  content : Option String := none
  url : Option String := none
  snippet : Option String := none
  score : ℚ
  provider : String
  metadata : Option (List (String × String)) := none
  highlights : Option (List String) := none
  explanation : Option String := none
  vector : Option (List ℚ) := none
deriving DecidableEq, Repr

/-- `hashlib.md5(s).hexdigest()` modelled as an injective digest. -/
def md5hex (s : String) : String := s

/-- Python truthiness of an optional string (`if result.url:`). -/
def truthyStr : Option String → Bool
  | none => false
  | some s => !s.isEmpty

/-- `x or ''` for an optional string field. -/
def orEmpty (o : Option String) : String := o.getD ""

/-- `ResultAggregator._get_content_hash`: hash of the URL when present
(and nonempty), else hash of title, content and snippet concatenated. -/
def contentHash (r : SearchResult) : String :=
  if truthyStr r.url then md5hex (orEmpty r.url)
  else md5hex (orEmpty r.title ++ orEmpty r.content ++ orEmpty r.snippet)

/-- One iteration of the loop in `ResultAggregator._deduplicate`.  `seen`
maps a content hash to its current representative (newest binding first);
`unique` is the output list.  A higher-scoring duplicate replaces the
representative in place (`unique_results[idx] = result`). -/
def dedupStep (acc : List (String × SearchResult) × List SearchResult)
    (r : SearchResult) : List (String × SearchResult) × List SearchResult :=
  let h := contentHash r
  match acc.1.lookup h with
  | none => ((h, r) :: acc.1, acc.2 ++ [r])
  | some prev =>
    if prev.score < r.score then
      ((h, r) :: acc.1, acc.2.set (acc.2.findIdx (fun x => decide (x = prev))) r)
    else acc

/-- `ResultAggregator._deduplicate`. -/
def deduplicate (results : List SearchResult) : List SearchResult :=
  (results.foldl dedupStep ([], [])).2

/-- Stable descending insertion by key.  Together with `sortDescBy` this
models Python's stable `list.sort(key=..., reverse=True)`; any stable sort
by a total key order is extensionally the same function. -/
def insertDescBy {α : Type} (key : α → ℚ) (a : α) : List α → List α
  | [] => [a]
  | b :: l => if key b ≤ key a then a :: b :: l else b :: insertDescBy key a l

/-- Stable descending sort by key (see `insertDescBy`). -/
def sortDescBy {α : Type} (key : α → ℚ) : List α → List α
  | [] => []
  | a :: l => insertDescBy key a (sortDescBy key l)

/-- `ResultAggregator.aggregate`: optionally deduplicate, then sort by
score descending. -/
def aggregate (results : List SearchResult) (dedup : Bool := true) :
    List SearchResult :=
  if results = [] then []
  else
    let rs := if dedup then deduplicate results else results
    sortDescBy (fun r => r.score) rs

/-! ### Sorting lemmas for the stable descending sort -/

theorem insertDescBy_perm {α : Type} (key : α → ℚ) (a : α) (l : List α) :
    (insertDescBy key a l).Perm (a :: l) := by
  induction l with
  | nil => simp [insertDescBy]
  | cons b t ih =>
    by_cases h : key b ≤ key a
    · simp [insertDescBy, h]
    · simp only [insertDescBy, if_neg h]
      exact (ih.cons b).trans (List.Perm.swap a b t)

theorem sortDescBy_perm {α : Type} (key : α → ℚ) (l : List α) :
    (sortDescBy key l).Perm l := by
  induction l with
  | nil => simp [sortDescBy]
  | cons a t ih =>
    exact (insertDescBy_perm key a (sortDescBy key t)).trans (ih.cons a)

theorem insertDescBy_sorted {α : Type} (key : α → ℚ) (a : α) (l : List α)
    (h : l.Pairwise (fun x y => key y ≤ key x)) :
    (insertDescBy key a l).Pairwise (fun x y => key y ≤ key x) := by
  induction l with
  | nil => simp [insertDescBy]
  | cons b t ih =>
    rcases List.pairwise_cons.1 h with ⟨hb, ht⟩
    by_cases hba : key b ≤ key a
    · simp only [insertDescBy, if_pos hba]
      refine List.pairwise_cons.2 ⟨?_, h⟩
      intro y hy
      rcases List.mem_cons.1 hy with hy | hy
      · simpa [hy]
      · exact le_trans (hb y hy) hba
    · simp only [insertDescBy, if_neg hba]
      refine List.pairwise_cons.2 ⟨?_, ih ht⟩
      intro y hy
      have hy' := (insertDescBy_perm key a t).mem_iff.1 hy
      rcases List.mem_cons.1 hy' with hy' | hy'
      · subst hy'; exact le_of_not_le hba
      · exact hb y hy'

theorem sortDescBy_sorted {α : Type} (key : α → ℚ) (l : List α) :
    (sortDescBy key l).Pairwise (fun x y => key y ≤ key x) := by
  induction l with
  | nil => simp [sortDescBy]
  | cons a t ih => exact insertDescBy_sorted key a _ ih

theorem sublist_insertDescBy {α : Type} (key : α → ℚ) (a : α) (l : List α) :
    l.Sublist (insertDescBy key a l) := by
  induction l with
  | nil => simp [insertDescBy]
  | cons b t ih =>
    by_cases h : key b ≤ key a
    · simp only [insertDescBy, if_pos h]
      exact (List.sublist_cons_self a (b :: t))
    · simp only [insertDescBy, if_neg h]
      exact ih.cons₂ b

theorem pair_sublist_insertDescBy {α : Type} (key : α → ℚ) (a s : α)
    (l : List α) (hs : s ∈ l) (hle : key s ≤ key a) :
    [a, s].Sublist (insertDescBy key a l) := by
  induction l with
  | nil => cases hs
  | cons b t ih =>
    by_cases h : key b ≤ key a
    · simp only [insertDescBy, if_pos h]
      exact (List.singleton_sublist.2 hs).cons₂ a
    · simp only [insertDescBy, if_neg h]
      have hsb : s ≠ b := by
        intro e
        exact h (le_trans (e ▸ hle) (le_refl _))
      have hst : s ∈ t := by
        rcases List.mem_cons.1 hs with hs' | hs'
        · exact absurd hs' hsb
        · exact hs'
      exact (ih hst).cons b

theorem pair_sublist_sortDescBy {α : Type} (key : α → ℚ) (r s : α)
    (l : List α) (hle : key s ≤ key r) (h : [r, s].Sublist l) :
    [r, s].Sublist (sortDescBy key l) := by
  induction l with
  | nil => cases h
  | cons b t ih =>
    cases h with
    | cons _ h' =>
      exact (ih h').trans (sublist_insertDescBy key b _)
    | cons₂ _ h' =>
      have hsmem : s ∈ sortDescBy key t :=
        (sortDescBy_perm key t).mem_iff.2 (List.singleton_sublist.1 h')
      exact pair_sublist_insertDescBy key r s _ hsmem hle

/-! ### C5: ordering of `aggregate` output -/

/-- Non-increasing score order. -/
def sortedByScoreDesc (l : List SearchResult) : Prop :=
  l.Pairwise (fun a b => b.score ≤ a.score)

/-- Every equal-score pair of `inp` keeps its relative order in `out`. -/
def tiesPreserved (inp out : List SearchResult) : Prop :=
  ∀ r s : SearchResult, r.score = s.score → [r, s].Sublist inp →
    [r, s].Sublist out

def c5a1 : SearchResult := { id := "1", title := some "a", score := 1, provider := "p" }

def c5b : SearchResult := { id := "2", title := some "b", score := 2, provider := "p" }

def c5a2 : SearchResult := { id := "3", title := some "a", score := 2, provider := "p" }

/-- C5 counterexample: with deduplication (the default), a higher-scoring
duplicate replaces its representative at the position of the fingerprint's
first occurrence, so two equal-score results (`c5b` before `c5a2` in the
input) come out in the opposite order. -/
theorem c5_counterexample :
    aggregate [c5a1, c5b, c5a2] true = [c5a2, c5b] ∧
    c5b.score = c5a2.score ∧
    [c5b, c5a2].Sublist [c5a1, c5b, c5a2] ∧
    ¬ [c5b, c5a2].Sublist (aggregate [c5a1, c5b, c5a2] true) := by
  refine ⟨by decide, by decide, ?_, ?_⟩
  · decide
  · decide

/-- C5 amended: `aggregate` output is sorted in non-increasing score order,
and equal-score results appear in the relative order of the *deduplicated*
sequence (which is the input order when deduplication is disabled, but with
each retained representative occupying the position of its fingerprint's
first occurrence when deduplication is enabled). -/
theorem aggregate_sorted_and_stable (results : List SearchResult) (d : Bool) :
    sortedByScoreDesc (aggregate results d) ∧
    tiesPreserved (if d then deduplicate results else results)
      (aggregate results d) := by
  by_cases hnil : results = []
  · subst hnil
    constructor
    · simp [aggregate, sortedByScoreDesc]
    · intro r s _ hsub
      cases d <;> simp [deduplicate] at hsub
  · unfold aggregate
    rw [if_neg hnil]
    constructor
    · exact sortDescBy_sorted _ _
    · intro r s hscore hsub
      cases d <;>
        exact pair_sublist_sortDescBy _ r s _ (le_of_eq hscore.symm) (by simpa using hsub)

/-! ### C4: deduplication preserves fingerprints and keeps maximal scores -/

/-- Invariant carried through the `_deduplicate` loop: `seen` maps every
fingerprint observed so far to a representative that is in `unique`, is an
input element, and carries the maximum score seen so far for that
fingerprint. -/
structure DedupInv (processed : List SearchResult)
    (seen : List (String × SearchResult)) (unique : List SearchResult) :
    Prop where
  lookup_spec : ∀ h r, seen.lookup h = some r →
    contentHash r = h ∧ r ∈ processed ∧ r ∈ unique ∧
      ∀ x ∈ processed, contentHash x = h → x.score ≤ r.score
  mem_lookup : ∀ r ∈ unique, seen.lookup (contentHash r) = some r
  processed_seen : ∀ x ∈ processed, (seen.lookup (contentHash x)).isSome
  nodup : unique.Nodup

/-- `l.set (l.findIdx (· == a)) r` replaces the first occurrence of `a`. -/
theorem set_findIdx_replace {α : Type} [DecidableEq α] (l : List α) (a r : α)
    (ha : a ∈ l) :
    ∃ A B, l = A ++ a :: B ∧ a ∉ A ∧
      l.set (l.findIdx (fun x => decide (x = a))) r = A ++ r :: B := by
  induction l with
  | nil => cases ha
  | cons b t ih =>
    by_cases hba : b = a
    · subst hba
      exact ⟨[], t, rfl, by simp, by simp [List.findIdx_cons]⟩
    · have hat : a ∈ t := by
        rcases List.mem_cons.1 ha with h | h
        · exact absurd h.symm hba
        · exact h
      rcases ih hat with ⟨A, B, hdecomp, hnA, hset⟩
      refine ⟨b :: A, B, by simp [hdecomp], ?_, ?_⟩
      · intro hmem
        rcases List.mem_cons.1 hmem with h | h
        · exact hba h.symm
        · exact hnA h
      · have hfalse : (fun x => decide (x = a)) b = false := by
          simp [hba]
        simp [List.findIdx_cons, hfalse, hset]

/-- `List.lookup` on a cons cell, in `if` form. -/
theorem lookup_cons_eq {β : Type} (a k : String) (v : β)
    (t : List (String × β)) :
    List.lookup a ((k, v) :: t) = if a = k then some v else List.lookup a t := by
  rw [List.lookup_cons]
  by_cases h : a = k
  · simp [h]
  · have hb : (a == k) = false := beq_false_of_ne h
    simp [hb, h]

theorem dedupStep_inv (processed : List SearchResult)
    (seen : List (String × SearchResult)) (unique : List SearchResult)
    (r : SearchResult) (hInv : DedupInv processed seen unique) :
    DedupInv (processed ++ [r]) (dedupStep (seen, unique) r).1
      (dedupStep (seen, unique) r).2 := by
  rcases hInv with ⟨hspec, hmem, hproc, hnd⟩
  unfold dedupStep
  rcases hlk : seen.lookup (contentHash r) with _ | prev
  · -- fingerprint not seen yet: append a new representative
    simp only [hlk]
    constructor
    · intro h' r' hl
      rw [lookup_cons_eq] at hl
      by_cases hh : h' = contentHash r
      · rw [if_pos hh] at hl
        injection hl with hl
        subst hl
        refine ⟨hh.symm, by simp, by simp, ?_⟩
        intro x hx hhx
        rcases List.mem_append.1 hx with hx | hx
        · have hx' := hproc x hx
          rw [hhx, hh, hlk] at hx'
          simp at hx'
        · simp only [List.mem_singleton] at hx
          subst hx; exact le_refl _
      · rw [if_neg hh] at hl
        rcases hspec h' r' hl with ⟨h1, h2, h3, h4⟩
        refine ⟨h1, List.mem_append.2 (Or.inl h2),
          List.mem_append.2 (Or.inl h3), ?_⟩
        intro x hx hhx
        rcases List.mem_append.1 hx with hx | hx
        · exact h4 x hx hhx
        · simp only [List.mem_singleton] at hx
          subst hx
          exact absurd hhx.symm hh
    · intro r' hr'
      rcases List.mem_append.1 hr' with hr' | hr'
      · rw [lookup_cons_eq]
        by_cases hcr : contentHash r' = contentHash r
        · have := hmem r' hr'
          rw [hcr, hlk] at this
          cases this
        · rw [if_neg hcr]
          exact hmem r' hr'
      · simp only [List.mem_singleton] at hr'
        subst hr'
        rw [lookup_cons_eq, if_pos rfl]
    · intro x hx
      rcases List.mem_append.1 hx with hx | hx
      · rw [lookup_cons_eq]
        by_cases hcx : contentHash x = contentHash r
        · rw [if_pos hcx]; rfl
        · rw [if_neg hcx]
          exact hproc x hx
      · simp only [List.mem_singleton] at hx
        subst hx
        rw [lookup_cons_eq, if_pos rfl]
        rfl
    · rw [List.nodup_append]
      refine ⟨hnd, List.nodup_singleton r, ?_⟩
      intro a ha hb
      simp only [List.mem_singleton] at hb
      subst hb
      have := hmem a ha
      rw [hlk] at this
      cases this
  · -- fingerprint already seen
    rcases hspec (contentHash r) prev hlk with ⟨hph, hpp, hpu, hpmax⟩
    by_cases hsc : prev.score < r.score
    · -- higher score: replace the representative in place
      rcases set_findIdx_replace unique prev r hpu with ⟨A, B, hAB, hprevA, hset⟩
      simp only [hlk, if_pos hsc, hset]
      rw [hAB] at hnd
      rcases List.nodup_append.1 hnd with ⟨ndA, ndPB, disj⟩
      rcases List.nodup_cons.1 ndPB with ⟨hprevB, ndB⟩
      have fact1 : ∀ y ∈ A ++ B, y ≠ prev := by
        intro y hy he
        subst he
        rcases List.mem_append.1 hy with hy | hy
        · exact hprevA hy
        · exact hprevB hy
      have fact2 : ∀ y ∈ A ++ B, y ∈ unique := by
        intro y hy
        rw [hAB]
        rcases List.mem_append.1 hy with hy | hy
        · exact List.mem_append.2 (Or.inl hy)
        · exact List.mem_append.2 (Or.inr (List.mem_cons_of_mem _ hy))
      have fact3 : ∀ y ∈ A ++ B, contentHash y ≠ contentHash r := by
        intro y hy he
        have hm := hmem y (fact2 y hy)
        rw [he, hlk] at hm
        injection hm with hm
        exact fact1 y hy hm.symm
      have fact4 : r ∉ A ++ B := fun hr => fact3 r hr rfl
      constructor
      · intro h' r' hl
        rw [lookup_cons_eq] at hl
        by_cases hh : h' = contentHash r
        · rw [if_pos hh] at hl
          injection hl with hl
          subst hl
          refine ⟨hh.symm, by simp, ?_, ?_⟩
          · exact List.mem_append.2 (Or.inr (List.mem_cons_self r B))
          · intro x hx hhx
            rcases List.mem_append.1 hx with hx | hx
            · exact le_of_lt (lt_of_le_of_lt (hpmax x hx (hhx.trans hh)) hsc)
            · simp only [List.mem_singleton] at hx
              subst hx; exact le_refl _
        · rw [if_neg hh] at hl
          rcases hspec h' r' hl with ⟨h1, h2, h3, h4⟩
          have hr'ne : r' ≠ prev := by
            intro he
            subst he
            exact hh (h1.symm.trans hph)
          have hr'AB : r' ∈ A ++ B := by
            rw [hAB] at h3
            rcases List.mem_append.1 h3 with h3 | h3
            · exact List.mem_append.2 (Or.inl h3)
            · rcases List.mem_cons.1 h3 with h3 | h3
              · exact absurd h3 hr'ne
              · exact List.mem_append.2 (Or.inr h3)
          refine ⟨h1, List.mem_append.2 (Or.inl h2), ?_, ?_⟩
          · rcases List.mem_append.1 hr'AB with hy | hy
            · exact List.mem_append.2 (Or.inl hy)
            · exact List.mem_append.2 (Or.inr (List.mem_cons_of_mem _ hy))
          · intro x hx hhx
            rcases List.mem_append.1 hx with hx | hx
            · exact h4 x hx hhx
            · simp only [List.mem_singleton] at hx
              subst hx
              exact absurd hhx.symm hh
      · intro r' hr'
        rcases List.mem_append.1 hr' with hy | hy
        · have hyAB : r' ∈ A ++ B := List.mem_append.2 (Or.inl hy)
          rw [lookup_cons_eq, if_neg (fact3 r' hyAB)]
          exact hmem r' (fact2 r' hyAB)
        · rcases List.mem_cons.1 hy with hy | hy
          · subst hy
            rw [lookup_cons_eq, if_pos rfl]
          · have hyAB : r' ∈ A ++ B := List.mem_append.2 (Or.inr hy)
            rw [lookup_cons_eq, if_neg (fact3 r' hyAB)]
            exact hmem r' (fact2 r' hyAB)
      · intro x hx
        rcases List.mem_append.1 hx with hx | hx
        · rw [lookup_cons_eq]
          by_cases hcx : contentHash x = contentHash r
          · rw [if_pos hcx]; rfl
          · rw [if_neg hcx]
            exact hproc x hx
        · simp only [List.mem_singleton] at hx
          subst hx
          rw [lookup_cons_eq, if_pos rfl]
          rfl
      · rw [List.nodup_append]
        refine ⟨ndA, List.nodup_cons.2 ⟨?_, ndB⟩, ?_⟩
        · intro hrB
          exact fact4 (List.mem_append.2 (Or.inr hrB))
        · intro a ha hb
          rcases List.mem_cons.1 hb with hb | hb
          · subst hb
            exact fact4 (List.mem_append.2 (Or.inl ha))
          · exact disj ha (List.mem_cons_of_mem _ hb)
    · -- not higher: drop the duplicate
      simp only [hlk, if_neg hsc]
      constructor
      · intro h' r' hl
        rcases hspec h' r' hl with ⟨h1, h2, h3, h4⟩
        refine ⟨h1, List.mem_append.2 (Or.inl h2), h3, ?_⟩
        intro x hx hhx
        rcases List.mem_append.1 hx with hx | hx
        · exact h4 x hx hhx
        · simp only [List.mem_singleton] at hx
          subst hx
          rw [← hhx, hlk] at hl
          injection hl with hl
          subst hl
          exact le_of_not_lt hsc
      · exact hmem
      · intro x hx
        rcases List.mem_append.1 hx with hx | hx
        · exact hproc x hx
        · simp only [List.mem_singleton] at hx
          subst hx
          rw [hlk]
          rfl
      · exact hnd


theorem dedup_fold_inv (results : List SearchResult) :
    ∀ (processed : List SearchResult) (seen : List (String × SearchResult))
      (unique : List SearchResult), DedupInv processed seen unique →
      DedupInv (processed ++ results)
        ((results.foldl dedupStep (seen, unique)).1)
        ((results.foldl dedupStep (seen, unique)).2) := by
  induction results with
  | nil =>
    intro processed seen unique hInv
    simpa using hInv
  | cons r t ih =>
    intro processed seen unique hInv
    have hstep := dedupStep_inv processed seen unique r hInv
    have hrec := ih (processed ++ [r]) (dedupStep (seen, unique) r).1
      (dedupStep (seen, unique) r).2 hstep
    rw [List.foldl_cons]
    have heq : processed ++ r :: t = (processed ++ [r]) ++ t := by
      rw [List.append_assoc]; rfl
    rw [heq]
    exact hrec

theorem deduplicate_inv (results : List SearchResult) :
    DedupInv results ((results.foldl dedupStep ([], [])).1)
      (deduplicate results) := by
  have hbase : DedupInv [] [] [] := by
    constructor
    · intro h r hl; cases hl
    · intro r hr; cases hr
    · intro x hx; cases hx
    · exact List.nodup_nil
  have := dedup_fold_inv results [] [] [] hbase
  simpa [deduplicate] using this

/-- C4 (confirmed): aggregating with deduplication enabled preserves the set
of fingerprints, and every retained representative is an input element
carrying the maximum score observed for its fingerprint in the input. -/
theorem aggregate_dedup_fingerprints (results : List SearchResult) :
    (∀ h : String, h ∈ (aggregate results true).map contentHash ↔
      h ∈ results.map contentHash) ∧
    ∀ r ∈ aggregate results true, r ∈ results ∧
      ∀ x ∈ results, contentHash x = contentHash r → x.score ≤ r.score := by
  by_cases hnil : results = []
  · subst hnil
    constructor
    · intro h
      simp [aggregate]
    · intro r hr
      simp [aggregate] at hr
  · have hinv := deduplicate_inv results
    have hagg : aggregate results true = sortDescBy (fun r => r.score) (deduplicate results) := by
      simp [aggregate, hnil]
    have hperm : (aggregate results true).Perm (deduplicate results) := by
      rw [hagg]; exact sortDescBy_perm _ _
    have hmain : ∀ r ∈ deduplicate results, r ∈ results ∧
        ∀ x ∈ results, contentHash x = contentHash r → x.score ≤ r.score := by
      intro r hr
      have hl := hinv.mem_lookup r hr
      rcases hinv.lookup_spec (contentHash r) r hl with ⟨_, h2, _, h4⟩
      exact ⟨h2, h4⟩
    constructor
    · intro h
      constructor
      · intro hmem
        rcases List.mem_map.1 hmem with ⟨r, hr, hh⟩
        have hr' := hperm.mem_iff.1 hr
        exact List.mem_map.2 ⟨r, (hmain r hr').1, hh⟩
      · intro hmem
        rcases List.mem_map.1 hmem with ⟨x, hx, hh⟩
        have hs := hinv.processed_seen x hx
        rcases ho : (((results.foldl dedupStep ([], [])).1).lookup (contentHash x)) with _ | r
        · rw [ho] at hs; cases hs
        · rcases hinv.lookup_spec (contentHash x) r ho with ⟨h1, _, h3, _⟩
          refine List.mem_map.2 ⟨r, hperm.mem_iff.2 h3, ?_⟩
          rw [h1, hh]
    · intro r hr
      exact hmain r (hperm.mem_iff.1 hr)

/-! ### C6: reciprocal rank fusion -/

/-- `scores[result_id] += v` on an insertion-ordered association list
(Python dicts preserve insertion order; an update keeps the position). -/
def bumpScore : List (String × ℚ) → String → ℚ → List (String × ℚ)
  | [], h, v => [(h, v)]
  | (h', v') :: rest, h, v =>
    if h' = h then (h', v' + v) :: rest else (h', v') :: bumpScore rest h v

/-- `result_map` insert-if-absent, insertion-ordered. -/
def addResult : List (String × SearchResult) → String → SearchResult →
    List (String × SearchResult)
  | [], h, r => [(h, r)]
  | (h', r') :: rest, h, r =>
    if h' = h then (h', r') :: rest else (h', r') :: addResult rest h r

/-- Inner loop of `ResultAggregator.reciprocal_rank_fusion` over one ranked
list, from a given 1-based rank. -/
def rrfList (k : Nat) :
    List (String × ℚ) × List (String × SearchResult) → Nat →
    List SearchResult → List (String × ℚ) × List (String × SearchResult)
  | st, _, [] => st
  | st, rank, r :: rest =>
    rrfList k
      (bumpScore st.1 (contentHash r) (1 / ((k : ℚ) + (rank : ℚ))),
        addResult st.2 (contentHash r) r) (rank + 1) rest

/-- The `scores` and `result_map` accumulators after all input lists. -/
def rrfState (k : Nat) (lists : List (List SearchResult)) :
    List (String × ℚ) × List (String × SearchResult) :=
  lists.foldl (fun st L => rrfList k st 1 L) ([], [])

/-- `ResultAggregator.reciprocal_rank_fusion`. -/
def reciprocalRankFusion (lists : List (List SearchResult)) (k : Nat := 60) :
    List SearchResult :=
  let st := rrfState k lists
  (sortDescBy (fun p => p.2) st.1).filterMap
    (fun p => (st.2.lookup p.1).map (fun r => { r with score := p.2 }))

/-- RRF contribution of one ranked list to fingerprint `h`, from a given
1-based rank: the sum of `1/(k + r)` over occurrences. -/
def rrfSpecList (k : Nat) (h : String) : Nat → List SearchResult → ℚ
  | _, [] => 0
  | rank, r :: rest =>
    (if contentHash r = h then (1 : ℚ) / ((k : ℚ) + (rank : ℚ)) else 0) +
      rrfSpecList k h (rank + 1) rest

/-- Total RRF score of fingerprint `h` over all input lists. -/
def rrfSpec (k : Nat) (h : String) (lists : List (List SearchResult)) : ℚ :=
  (lists.map (rrfSpecList k h 1)).sum

/-- Accumulated score of a fingerprint (0 when absent). -/
def scoreVal (scores : List (String × ℚ)) (h : String) : ℚ :=
  (scores.lookup h).getD 0

theorem scoreVal_bumpScore (scores : List (String × ℚ)) (h h' : String)
    (v : ℚ) :
    scoreVal (bumpScore scores h v) h' =
      scoreVal scores h' + (if h' = h then v else 0) := by
  induction scores with
  | nil =>
    by_cases hh : h' = h
    · simp [bumpScore, scoreVal, lookup_cons_eq, hh]
    · simp [bumpScore, scoreVal, lookup_cons_eq, hh]
  | cons p rest ih =>
    rcases p with ⟨h0, v0⟩
    by_cases h0h : h0 = h
    · subst h0h
      by_cases hh : h' = h0
      · subst hh
        simp [bumpScore, scoreVal, lookup_cons_eq]
      · simp [bumpScore, scoreVal, lookup_cons_eq, hh]
    · by_cases hh : h' = h0
      · subst hh
        simp [bumpScore, scoreVal, lookup_cons_eq, h0h]
      · simp only [bumpScore, if_neg h0h, scoreVal, lookup_cons_eq, if_neg hh]
        exact ih

theorem scoreVal_rrfList (k : Nat) (L : List SearchResult) :
    ∀ (st : List (String × ℚ) × List (String × SearchResult)) (rank : Nat)
      (h' : String),
      scoreVal (rrfList k st rank L).1 h' =
        scoreVal st.1 h' + rrfSpecList k h' rank L := by
  induction L with
  | nil =>
    intro st rank h'
    simp [rrfList, rrfSpecList]
  | cons r rest ih =>
    intro st rank h'
    simp only [rrfList, rrfSpecList]
    rw [ih]
    simp only [scoreVal_bumpScore]
    have hcomm : (if h' = contentHash r then (1 : ℚ) / ((k : ℚ) + (rank : ℚ)) else 0) =
        (if contentHash r = h' then (1 : ℚ) / ((k : ℚ) + (rank : ℚ)) else 0) := by
      by_cases hc : h' = contentHash r
      · simp [hc]
      · rw [if_neg hc, if_neg (fun e => hc (Eq.symm e))]
    rw [hcomm]
    ring

theorem scoreVal_rrf_fold (k : Nat) (lists : List (List SearchResult)) :
    ∀ st : List (String × ℚ) × List (String × SearchResult), ∀ h' : String,
      scoreVal (lists.foldl (fun st' L => rrfList k st' 1 L) st).1 h' =
        scoreVal st.1 h' + (lists.map (rrfSpecList k h' 1)).sum := by
  induction lists with
  | nil =>
    intro st h'
    simp
  | cons L rest ih =>
    intro st h'
    simp only [List.foldl_cons, List.map_cons, List.sum_cons]
    rw [ih]
    rw [scoreVal_rrfList]
    ring

theorem scoreVal_rrfState_spec (k : Nat) (lists : List (List SearchResult))
    (h' : String) :
    scoreVal (rrfState k lists).1 h' = rrfSpec k h' lists := by
  unfold rrfState rrfSpec
  rw [scoreVal_rrf_fold]
  simp [scoreVal]

/-- A fingerprint absent from a list contributes nothing. -/
theorem rrfSpecList_not_mem (k : Nat) (h : String) (L : List SearchResult)
    (habs : h ∉ L.map contentHash) : ∀ rank, rrfSpecList k h rank L = 0 := by
  induction L with
  | nil => intro rank; simp [rrfSpecList]
  | cons r rest ih =>
    intro rank
    simp only [List.map_cons, List.mem_cons] at habs
    push_neg at habs
    simp only [rrfSpecList]
    rw [if_neg (fun e => habs.1 e.symm), ih habs.2 (rank + 1)]
    ring

theorem rrfSpecList_nodup (k : Nat) (L : List SearchResult) :
    ∀ (i rank : Nat) (hi : i < L.length), (L.map contentHash).Nodup →
      rrfSpecList k (contentHash (L.get ⟨i, hi⟩)) rank L =
        1 / ((k : ℚ) + (rank : ℚ) + (i : ℚ)) := by
  induction L with
  | nil =>
    intro i rank hi
    cases hi
  | cons r rest ih =>
    intro i rank hi hnd
    simp only [List.map_cons, List.nodup_cons] at hnd
    rcases hnd with ⟨hr, hnd⟩
    match i with
    | 0 =>
      simp only [List.get, rrfSpecList, if_pos rfl]
      rw [rrfSpecList_not_mem k (contentHash r) rest hr (rank + 1)]
      push_cast
      ring
    | i + 1 =>
      have hi' : i < rest.length := Nat.lt_of_succ_lt_succ hi
      have hget : (r :: rest).get ⟨i + 1, hi⟩ = rest.get ⟨i, hi'⟩ := rfl
      rw [hget]
      simp only [rrfSpecList]
      have hne : contentHash r ≠ contentHash (rest.get ⟨i, hi'⟩) := by
        intro e
        exact hr (e ▸ List.mem_map.2 ⟨rest.get ⟨i, hi'⟩, rest.get_mem _ _, rfl⟩)
      rw [if_neg hne, ih i (rank + 1) hi' hnd]
      push_cast
      ring

theorem rrf_output_sorted (lists : List (List SearchResult)) (k : Nat) :
    sortedByScoreDesc (reciprocalRankFusion lists k) := by
  unfold reciprocalRankFusion sortedByScoreDesc
  rw [List.pairwise_filterMap]
  have hsorted := sortDescBy_sorted (fun p : String × ℚ => p.2) (rrfState k lists).1
  refine hsorted.imp ?_
  intro p q hle b hb b' hb'
  rcases Option.map_eq_some'.1 hb with ⟨a, _, hfa⟩
  rcases Option.map_eq_some'.1 hb' with ⟨a', _, hfa'⟩
  rw [← hfa, ← hfa']
  exact hle

/-- C6 (confirmed): reciprocal-rank fusion gives each fingerprint the score
accumulated as `1/(60 + r)` over every occurrence at 1-based rank `r` in any
input list, orders the output by that score descending with ties broken by
the accumulator's insertion order, and for one list (with distinct
fingerprints) replicated `k'` times each fingerprint scores
`k'/(60 + rank)`. -/
theorem rrf_spec_and_order :
    (∀ (lists : List (List SearchResult)) (h : String),
      scoreVal (rrfState 60 lists).1 h = rrfSpec 60 h lists) ∧
    (∀ lists : List (List SearchResult),
      sortedByScoreDesc (reciprocalRankFusion lists 60)) ∧
    (∀ (lists : List (List SearchResult)) (p q : String × ℚ), p.2 = q.2 →
      [p, q].Sublist (rrfState 60 lists).1 →
      [p, q].Sublist (sortDescBy (fun x => x.2) (rrfState 60 lists).1)) ∧
    (∀ (L : List SearchResult) (k' i : Nat) (hi : i < L.length),
      (L.map contentHash).Nodup →
      scoreVal (rrfState 60 (List.replicate k' L)).1
        (contentHash (L.get ⟨i, hi⟩)) = (k' : ℚ) / (60 + ((i : ℚ) + 1))) := by
  refine ⟨?_, ?_, ?_, ?_⟩
  · intro lists h
    exact scoreVal_rrfState_spec 60 lists h
  · intro lists
    exact rrf_output_sorted lists 60
  · intro lists p q hpq hsub
    exact pair_sublist_sortDescBy _ p q _ (le_of_eq hpq.symm) hsub
  · intro L k' i hi hnd
    rw [scoreVal_rrfState_spec]
    unfold rrfSpec
    rw [List.map_replicate, List.sum_replicate, rrfSpecList_nodup 60 L i 1 hi hnd]
    rw [nsmul_eq_mul]
    push_cast
    ring

/-! ### C1: response status computed from provider outcomes -/

/-- Outcome of one dispatched provider task, as seen by the gather loop in
`RouterService.search` / `RouterService.vector_search`: `none` models a
raised exception, `some rs` a returned result list. -/
abbrev ProviderOutcome := String × Option (List SearchResult)

/-- The partition loop of `RouterService.search` (router.py:99-113) and
`RouterService.vector_search` (router.py:214-223): collects
`(all_results, failed_providers, successful_providers)`. -/
def partitionOutcomes (outcomes : List ProviderOutcome) :
    List SearchResult × List String × List String :=
  outcomes.foldl
    (fun acc o =>
      match o.2 with
      | none => (acc.1, acc.2.1 ++ [o.1], acc.2.2)
      | some rs => (acc.1 ++ rs, acc.2.1, acc.2.2 ++ [o.1]))
    ([], [], [])

/-- The response status computed at router.py:140 and router.py:229:
`"success" if not failed_providers else "partial"`. -/
def responseStatus (outcomes : List ProviderOutcome) : String :=
  if (partitionOutcomes outcomes).2.1 = [] then "success" else "partial"

/-- C1 counterexample: when the single dispatched provider fails, zero
providers contribute results, yet the computed status is `"partial"`, not
`"error"` as the claim requires. -/
theorem c1_counterexample :
    responseStatus [("google", none)] = "partial" ∧
    (partitionOutcomes [("google", none)]).2.2 = [] ∧
    responseStatus [("google", none)] ≠ "error" := by
  refine ⟨rfl, rfl, by decide⟩

/-- C1 amended: for the outcome-partition path of `search` and
`vector_search`, the status is `"success"` exactly when no dispatched
provider failed and `"partial"` exactly when at least one failed — even when
every provider failed; this path never yields `"error"` (`"error"` arises
only from the no-available-providers and exception paths via
`_error_response`). -/
theorem responseStatus_characterization (outcomes : List ProviderOutcome) :
    (responseStatus outcomes = "success" ↔
      (partitionOutcomes outcomes).2.1 = []) ∧
    (responseStatus outcomes = "partial" ↔
      (partitionOutcomes outcomes).2.1 ≠ []) ∧
    responseStatus outcomes ≠ "error" := by
  unfold responseStatus
  by_cases h : (partitionOutcomes outcomes).2.1 = []
  · rw [if_pos h]
    refine ⟨by simp [h], ?_, by decide⟩
    constructor
    · intro he
      exact absurd he (by decide)
    · intro hne
      exact absurd h hne
  · rw [if_neg h]
    refine ⟨?_, by simp [h], by decide⟩
    constructor
    · intro he
      exact absurd he (by decide)
    · intro he
      exact absurd he h

/-! ### C7: cache gating and TTL defaults -/

/-- `CacheOptions` (models.py:87-91) with its field defaults. -/
structure CacheOptions where
  enabled : Bool := true
  ttl_seconds : Nat := 3600
  key : Option String := none
deriving DecidableEq, Repr

/-- `SearchOptions` (models.py:107-120) with its field defaults; `filters`
and `date_range` are modelled as opaque string maps / omitted. -/
structure SearchOptions where
  limit : Nat := 10
  offset : Nat := 0
  timeout_ms : Nat := 5000
  filters : Option (List (String × String)) := none
  include_metadata : Bool := true
  include_explanation : Bool := false
  rerank : Bool := false
  cache : Option CacheOptions := none
  fallback_providers : Option (List String) := none
  min_score : Option ℚ := none
  dedupFlag : Bool := true
deriving DecidableEq, Repr

/-- The router's cache-participation test (router.py:51 and router.py:156):
`self.cache_manager and request.options and request.options.cache`.
A present `CacheOptions` instance is always truthy in Python. -/
def routerCacheCheck (cacheManagerPresent : Bool)
    (options : Option SearchOptions) : Bool :=
  cacheManagerPresent &&
    (match options with
     | none => false
     | some o =>
       match o.cache with
       | none => false
       | some _ => true)

/-- The TTL chosen by `CacheManager.set` (cache.py:101-104):
`options.cache.ttl_seconds` when present and truthy (nonzero), else the
default TTL. -/
def cacheSetTTL (defaultTTL : Nat) (options : Option SearchOptions) : Nat :=
  match options with
  | some o =>
    match o.cache with
    | some c => if c.ttl_seconds ≠ 0 then c.ttl_seconds else defaultTTL
    | none => defaultTTL
  | none => defaultTTL

/-- C7 counterexample: with a cache manager present, a request whose options
are omitted entirely — or present with `cache` left unset (its default) —
does *not* pass the router's cache test, so no cache lookup or store is
attempted, contrary to the claim that caching is enabled by default. -/
theorem c7_counterexample :
    routerCacheCheck true none = false ∧
    routerCacheCheck true (some {}) = false := ⟨rfl, rfl⟩

/-- C7 amended: the router attempts cache lookup and store only when the
request carries options with an explicit `cache` object; in that case an
all-default `CacheOptions` is enabled and the stored TTL is the default
3600 seconds. -/
theorem routerCacheCheck_characterization (options : Option SearchOptions) :
    (routerCacheCheck true options = true ↔
      ∃ o c, options = some o ∧ o.cache = some c) ∧
    routerCacheCheck true (some { cache := some {} }) = true ∧
    ({} : CacheOptions).enabled = true ∧
    cacheSetTTL 3600 (some { cache := some {} }) = 3600 := by
  refine ⟨?_, rfl, rfl, rfl⟩
  constructor
  · intro h
    match options with
    | none => exact absurd h (by decide)
    | some o =>
      match ho : o.cache with
      | none =>
        rw [routerCacheCheck] at h
        simp [ho] at h
      | some c => exact ⟨o, c, rfl, ho⟩
  · rintro ⟨o, c, rfl, hc⟩
    rw [routerCacheCheck]
    simp [hc]

/-! ### C8: provider availability filter -/

/-- `ProviderType` (models.py:9-17). -/
inductive ProviderType where
  | search_engine
  | vector_db
  | document_store
  | knowledge_graph
  | enterprise
  | academic
  | data_warehouse
deriving DecidableEq, Repr

/-- `if requested_providers and name not in requested_providers: continue`
(manager.py:53): Python truthiness makes an empty requested list skip no
provider. -/
def requestedExcludes : Option (List String) → String → Bool
  | none, _ => false
  | some rs, name => !rs.isEmpty && !(rs.contains name)

/-- `if provider_type and self.configs[name].type != provider_type: continue`
(manager.py:57). -/
def typeExcludes : Option ProviderType → ProviderType → Bool
  | none, _ => false
  | some t, t' => decide (t' ≠ t)

/-- `ProviderManager.get_available_providers` (manager.py:43-68).  The
registry `adapters` is the insertion-ordered adapter map paired with each
provider's configured type; `health` is the latest recorded health status
per name. -/
def getAvailableProviders (adapters : List (String × ProviderType))
    (health : List (String × String))
    (requested : Option (List String) := none)
    (ptype : Option ProviderType := none) : List String :=
  adapters.foldl
    (fun acc nt =>
      if requestedExcludes requested nt.1 then acc
      else if typeExcludes ptype nt.2 then acc
      else
        match health.lookup nt.1 with
        | some st => if st = "healthy" ∨ st = "degraded" then acc ++ [nt.1] else acc
        | none => acc ++ [nt.1])
    []

/-- The per-provider availability test applied by the loop. -/
def providerAvailable (health : List (String × String))
    (requested : Option (List String)) (ptype : Option ProviderType)
    (nt : String × ProviderType) : Bool :=
  !requestedExcludes requested nt.1 && !typeExcludes ptype nt.2 &&
    (match health.lookup nt.1 with
     | some st => decide (st = "healthy") || decide (st = "degraded")
     | none => true)

/-- C8 counterexample: two never-checked providers registered as
`["a", "b"]` and requested as `["b", "a"]` come back in registry order
`["a", "b"]`, not in the requested order `["b", "a"]` the claim demands. -/
theorem c8_counterexample :
    getAvailableProviders
      [("a", ProviderType.search_engine), ("b", ProviderType.search_engine)]
      [] (some ["b", "a"]) none = ["a", "b"] ∧
    (["a", "b"] : List String) ≠ ["b", "a"] := by
  refine ⟨rfl, by decide⟩

theorem getAvailableProviders_fold (health : List (String × String))
    (requested : Option (List String)) (ptype : Option ProviderType) :
    ∀ (adapters : List (String × ProviderType)) (acc : List String),
      adapters.foldl
        (fun acc nt =>
          if requestedExcludes requested nt.1 then acc
          else if typeExcludes ptype nt.2 then acc
          else
            match health.lookup nt.1 with
            | some st => if st = "healthy" ∨ st = "degraded" then acc ++ [nt.1] else acc
            | none => acc ++ [nt.1])
        acc =
      acc ++ ((adapters.filter (providerAvailable health requested ptype)).map
        Prod.fst) := by
  intro adapters
  induction adapters with
  | nil => intro acc; simp
  | cons nt rest ih =>
    intro acc
    rw [List.foldl_cons]
    by_cases hreq : requestedExcludes requested nt.1
    · have hav : providerAvailable health requested ptype nt = false := by
        simp [providerAvailable, hreq]
      rw [if_pos hreq, ih acc, List.filter_cons_of_neg (by rw [hav]; decide)]
    · by_cases htyp : typeExcludes ptype nt.2
      · have hav : providerAvailable health requested ptype nt = false := by
          simp [providerAvailable, htyp]
        rw [if_neg hreq, if_pos htyp, ih acc,
          List.filter_cons_of_neg (by rw [hav]; decide)]
      · rcases hlk : health.lookup nt.1 with _ | st
        · have hav : providerAvailable health requested ptype nt = true := by
            simp [providerAvailable, hreq, htyp, hlk]
          simp only [if_neg hreq, if_neg htyp, hlk]
          rw [ih (acc ++ [nt.1]), List.filter_cons_of_pos (by rw [hav]),
            List.map_cons, List.append_assoc]
          rfl
        · by_cases hst : st = "healthy" ∨ st = "degraded"
          · have hav : providerAvailable health requested ptype nt = true := by
              simp only [providerAvailable, hlk]
              rcases hst with hst | hst <;> simp [hst, hreq, htyp]
            simp only [if_neg hreq, if_neg htyp, hlk, if_pos hst]
            rw [ih (acc ++ [nt.1]), List.filter_cons_of_pos (by rw [hav]),
              List.map_cons, List.append_assoc]
            rfl
          · have hav : providerAvailable health requested ptype nt = false := by
              push_neg at hst
              simp [providerAvailable, hlk, hst.1, hst.2]
            simp only [if_neg hreq, if_neg htyp, hlk, if_neg hst]
            rw [ih acc, List.filter_cons_of_neg (by rw [hav]; decide)]

/-- C8 amended: `get_available_providers` returns exactly the registered
requested providers whose latest health is healthy or degraded, plus the
registered requested ones never yet checked — but in *registry* (adapter
insertion) order, not in the requested order. -/
theorem getAvailableProviders_characterization
    (adapters : List (String × ProviderType))
    (health : List (String × String)) (requested : Option (List String))
    (ptype : Option ProviderType) :
    getAvailableProviders adapters health requested ptype =
      (adapters.filter (providerAvailable health requested ptype)).map
        Prod.fst := by
  unfold getAvailableProviders
  rw [getAvailableProviders_fold health requested ptype adapters []]
  rfl

/-! ### C2: circuit breaker (src/uir/core/circuit_breaker.py) -/

/-- `CircuitState`. -/
inductive CircuitState where
  | closed
  | opened
  | halfOpen
deriving DecidableEq, Repr

/-- `CircuitBreaker` state, with the constructor defaults.  Wall-clock time
(`datetime.now()`) is modelled as a natural number passed to each call. -/
structure CircuitBreaker where
  failure_threshold : Nat := 5
  recovery_timeout : Nat := 60
  half_open_max_calls : Nat := 3
  failure_count : Nat := 0
  last_failure_time : Option Nat := none
  state : CircuitState := CircuitState.closed
  half_open_calls : Nat := 0
deriving DecidableEq, Repr

/-- `CircuitBreaker._should_attempt_reset` at time `now`. -/
def CircuitBreaker.shouldAttemptReset (cb : CircuitBreaker) (now : Nat) :
    Bool :=
  match cb.last_failure_time with
  | none => false
  | some t => decide (t + cb.recovery_timeout ≤ now)

/-- `CircuitBreaker._on_success`. -/
def CircuitBreaker.onSuccess (cb : CircuitBreaker) : CircuitBreaker :=
  if cb.state = CircuitState.halfOpen then
    let calls := cb.half_open_calls + 1
    if cb.half_open_max_calls ≤ calls then
      { cb with half_open_calls := calls, state := CircuitState.closed, failure_count := 0 }
    else { cb with half_open_calls := calls }
  else { cb with failure_count := 0 }

/-- `CircuitBreaker._on_failure` at time `now`. -/
def CircuitBreaker.onFailure (cb : CircuitBreaker) (now : Nat) :
    CircuitBreaker :=
  let cb' := { cb with failure_count := cb.failure_count + 1, last_failure_time := some now }
  if cb'.state = CircuitState.halfOpen then
    { cb' with state := CircuitState.opened }
  else if cb'.failure_threshold ≤ cb'.failure_count then
    { cb' with state := CircuitState.opened }
  else cb'

/-- `CircuitBreaker.call` at time `now`.  `outcome = true` models the
wrapped function returning, `false` a counted (expected-exception) failure.
The first component records whether the wrapped function was invoked
(`false` = rejected with "Circuit breaker is open"). -/
def CircuitBreaker.call (cb : CircuitBreaker) (now : Nat) (outcome : Bool) :
    Bool × CircuitBreaker :=
  if cb.state = CircuitState.opened then
    if cb.shouldAttemptReset now then
      let cb' := { cb with state := CircuitState.halfOpen, half_open_calls := 0 }
      (true, if outcome then cb'.onSuccess else cb'.onFailure now)
    else (false, cb)
  else (true, if outcome then cb.onSuccess else cb.onFailure now)

/-- `n` consecutive counted failures through `call`, all at time `now`. -/
def CircuitBreaker.failN (cb : CircuitBreaker) (now : Nat) :
    Nat → CircuitBreaker
  | 0 => cb
  | n + 1 => CircuitBreaker.failN (cb.call now false).2 now n

/-- `n` consecutive successes through `call`, all at time `now`. -/
def CircuitBreaker.succN (cb : CircuitBreaker) (now : Nat) :
    Nat → CircuitBreaker
  | 0 => cb
  | n + 1 => CircuitBreaker.succN (cb.call now true).2 now n

theorem failN_opens (now : Nat) :
    ∀ (k : Nat) (cb : CircuitBreaker), cb.state = CircuitState.closed →
      cb.failure_count + k = cb.failure_threshold → 1 ≤ k →
      (cb.failN now k).state = CircuitState.opened := by
  intro k
  induction k with
  | zero => intro cb _ _ h1; cases h1
  | succ k ih =>
    intro cb hclosed hcount _
    have hnotopen : ¬ cb.state = CircuitState.opened := by
      rw [hclosed]; decide
    have hnothalf : ¬ cb.state = CircuitState.halfOpen := by
      rw [hclosed]; decide
    rcases Nat.eq_zero_or_pos k with hk | hk
    · subst hk
      have hthr : cb.failure_threshold ≤ cb.failure_count + 1 := by omega
      simp only [CircuitBreaker.failN, CircuitBreaker.call, if_neg hnotopen,
        Bool.false_eq_true, if_neg (by decide : ¬ (false = true)),
        CircuitBreaker.onFailure]
      rw [if_neg hnothalf, if_pos hthr]
      rfl
    · have hthr : ¬ cb.failure_threshold ≤ cb.failure_count + 1 := by omega
      simp only [CircuitBreaker.failN, CircuitBreaker.call, if_neg hnotopen,
        Bool.false_eq_true, if_neg (by decide : ¬ (false = true)),
        CircuitBreaker.onFailure]
      rw [if_neg hnothalf, if_neg hthr]
      exact ih { cb with failure_count := cb.failure_count + 1, last_failure_time := some now } hclosed (by simpa using (by omega : cb.failure_count + 1 + k = cb.failure_threshold)) hk

theorem succN_closes (now : Nat) :
    ∀ (k : Nat) (cb : CircuitBreaker), cb.state = CircuitState.halfOpen →
      cb.half_open_calls + k = cb.half_open_max_calls → 1 ≤ k →
      (cb.succN now k).state = CircuitState.closed ∧
        (cb.succN now k).failure_count = 0 := by
  intro k
  induction k with
  | zero => intro cb _ _ h1; cases h1
  | succ k ih =>
    intro cb hhalf hcount _
    have hnotopen : ¬ cb.state = CircuitState.opened := by
      rw [hhalf]; decide
    rcases Nat.eq_zero_or_pos k with hk | hk
    · subst hk
      have hmax : cb.half_open_max_calls ≤ cb.half_open_calls + 1 := by omega
      simp only [CircuitBreaker.succN, CircuitBreaker.call, if_neg hnotopen,
        if_pos rfl, CircuitBreaker.onSuccess]
      rw [if_pos hhalf, if_pos hmax]
      exact ⟨rfl, rfl⟩
    · have hmax : ¬ cb.half_open_max_calls ≤ cb.half_open_calls + 1 := by
        omega
      simp only [CircuitBreaker.succN, CircuitBreaker.call, if_neg hnotopen,
        if_pos rfl, CircuitBreaker.onSuccess]
      rw [if_pos hhalf, if_neg hmax]
      exact ih { cb with half_open_calls := cb.half_open_calls + 1 } hhalf (by simpa using (by omega : cb.half_open_calls + 1 + k = cb.half_open_max_calls)) hk

/-- C2 (confirmed): with threshold `n`, `n` consecutive counted failures in
Closed open the breaker; while Open and before `recovery_timeout` every
call is rejected without invoking the wrapped function; after
`recovery_timeout` the breaker proceeds in HalfOpen, where one counted
failure re-opens it (resetting the failure time) and `half_open_max_calls`
successes close it with `failure_count = 0`. -/
theorem circuitBreaker_claims :
    (∀ (cb : CircuitBreaker) (now : Nat),
      cb.state = CircuitState.closed → cb.failure_count = 0 →
      1 ≤ cb.failure_threshold →
      (cb.failN now cb.failure_threshold).state = CircuitState.opened) ∧
    (∀ (cb : CircuitBreaker) (now t : Nat) (b : Bool),
      cb.state = CircuitState.opened → cb.last_failure_time = some t →
      now < t + cb.recovery_timeout → cb.call now b = (false, cb)) ∧
    (∀ (cb : CircuitBreaker) (now t : Nat),
      cb.state = CircuitState.opened → cb.last_failure_time = some t →
      t + cb.recovery_timeout ≤ now →
      (cb.call now false).1 = true ∧
      ((cb.call now false).2).state = CircuitState.opened ∧
      ((cb.call now false).2).last_failure_time = some now) ∧
    (∀ (cb : CircuitBreaker) (now t : Nat),
      cb.state = CircuitState.opened → cb.last_failure_time = some t →
      t + cb.recovery_timeout ≤ now → 2 ≤ cb.half_open_max_calls →
      (cb.call now true).1 = true ∧
      ((cb.call now true).2).state = CircuitState.halfOpen ∧
      ((cb.call now true).2).half_open_calls = 1) ∧
    (∀ (cb : CircuitBreaker) (now : Nat),
      cb.state = CircuitState.halfOpen →
      ((cb.call now false).2).state = CircuitState.opened ∧
      ((cb.call now false).2).last_failure_time = some now) ∧
    (∀ (cb : CircuitBreaker) (now : Nat),
      cb.state = CircuitState.halfOpen → cb.half_open_calls = 0 →
      1 ≤ cb.half_open_max_calls →
      (cb.succN now cb.half_open_max_calls).state = CircuitState.closed ∧
      (cb.succN now cb.half_open_max_calls).failure_count = 0) := by
  refine ⟨?_, ?_, ?_, ?_, ?_, ?_⟩
  · intro cb now h0 hc ht
    exact failN_opens now cb.failure_threshold cb h0 (by omega) ht
  · intro cb now t b hopen hlf hlt
    have hres : cb.shouldAttemptReset now = false := by
      simp only [CircuitBreaker.shouldAttemptReset, hlf]
      simp [Nat.not_le.2 hlt]
    rw [CircuitBreaker.call, if_pos hopen, hres]
    simp
  · intro cb now t hopen hlf hle
    have hres : cb.shouldAttemptReset now = true := by
      simp [CircuitBreaker.shouldAttemptReset, hlf, hle]
    rw [CircuitBreaker.call, if_pos hopen, hres]
    refine ⟨rfl, ?_, ?_⟩ <;>
      simp [CircuitBreaker.onFailure]
  · intro cb now t hopen hlf hle hmax
    have hres : cb.shouldAttemptReset now = true := by
      simp [CircuitBreaker.shouldAttemptReset, hlf, hle]
    have hnotmax : ¬ cb.half_open_max_calls ≤ 0 + 1 := by omega
    rw [CircuitBreaker.call, if_pos hopen, hres]
    refine ⟨rfl, ?_, ?_⟩ <;>
      simp [CircuitBreaker.onSuccess, hnotmax]
  · intro cb now hhalf
    have hnotopen : ¬ cb.state = CircuitState.opened := by
      rw [hhalf]; decide
    rw [CircuitBreaker.call, if_neg hnotopen]
    constructor <;> simp [CircuitBreaker.onFailure, hhalf]
  · intro cb now hhalf hc hm
    exact succN_closes now cb.half_open_max_calls cb hhalf (by omega) hm

/-- C2 witness: a default breaker (threshold 5) opens after 5 consecutive
counted failures at time 0. -/
theorem circuitBreaker_claims_witness :
    (CircuitBreaker.failN {} 0 5).state = CircuitState.opened :=
  circuitBreaker_claims.1 {} 0 rfl rfl (by decide)

/-! ### C10: rate limiter with no matching bucket -/

/-- `TokenBucket` (core/rate_limiter.py:45-53); time and token amounts are
Python floats modelled as rationals. -/
structure TokenBucket where
  capacity : ℚ
  refill_rate : ℚ
  tokens : ℚ
  last_refill : ℚ
deriving DecidableEq, Repr

/-- `TokenBucket._refill` at time `now`. -/
def TokenBucket.refill (b : TokenBucket) (now : ℚ) : TokenBucket :=
  { b with tokens := min b.capacity (b.tokens + (now - b.last_refill) * b.refill_rate), last_refill := now }

/-- `TokenBucket.try_acquire`. -/
def TokenBucket.tryAcquire (b : TokenBucket) (now n : ℚ) :
    Bool × TokenBucket :=
  let b' := b.refill now
  if n ≤ b'.tokens then (true, { b' with tokens := b'.tokens - n })
  else (false, b')

/-- `TokenBucket.acquire`: refill-deduct-or-sleep loop; returns the total
time slept and the final bucket.  `fuel` bounds the loop. -/
def TokenBucket.acquire (fuel : Nat) (b : TokenBucket) (now n : ℚ) :
    ℚ × TokenBucket :=
  match fuel with
  | 0 => (0, b)
  | fuel + 1 =>
    let b' := b.refill now
    if n ≤ b'.tokens then (0, { b' with tokens := b'.tokens - n })
    else
      let wait := (n - b'.tokens) / b'.refill_rate
      let res := TokenBucket.acquire fuel b' (now + wait) n
      (wait + res.1, res.2)

/-- In-place update of a named bucket. -/
def setBucket : List (String × TokenBucket) → String → TokenBucket →
    List (String × TokenBucket)
  | [], h, b => [(h, b)]
  | (h', b') :: rest, h, b =>
    if h' = h then (h', b) :: rest else (h', b') :: setBucket rest h b

/-- The buckets built by `RateLimiter.__init__`: one
`TokenBucket(capacity=limit, refill_rate=limit)` per configured operation,
full at construction time `t0`. -/
def mkBuckets (rate_limits : List (String × Nat)) (t0 : ℚ) :
    List (String × TokenBucket) :=
  rate_limits.map (fun p =>
    (p.1, { capacity := (p.2 : ℚ), refill_rate := (p.2 : ℚ), tokens := (p.2 : ℚ), last_refill := t0 }))

/-- `RateLimiter` state. -/
structure RateLimiter where
  rate_limits : List (String × Nat)
  buckets : List (String × TokenBucket)
deriving DecidableEq, Repr

/-- `RateLimiter.__init__`. -/
def RateLimiter.init (rate_limits : List (String × Nat)) (t0 : ℚ) :
    RateLimiter :=
  ⟨rate_limits, mkBuckets rate_limits t0⟩

/-- `RateLimiter.try_acquire` (rate_limiter.py:37-42): fall back to the
`"default"` bucket, and admit unconditionally when neither exists. -/
def RateLimiter.tryAcquire (rl : RateLimiter) (operation : String)
    (tokens now : ℚ) : Bool × RateLimiter :=
  match rl.buckets.lookup operation with
  | some b =>
    let res := b.tryAcquire now tokens
    (res.1, { rl with buckets := setBucket rl.buckets operation res.2 })
  | none =>
    match rl.buckets.lookup "default" with
    | some b =>
      let res := b.tryAcquire now tokens
      (res.1, { rl with buckets := setBucket rl.buckets "default" res.2 })
    | none => (true, rl)

/-- `RateLimiter.acquire` (rate_limiter.py:31-35): waits on the selected
bucket; with no bucket it returns at once (total wait 0, state unchanged). -/
def RateLimiter.acquire (fuel : Nat) (rl : RateLimiter) (operation : String)
    (tokens now : ℚ) : ℚ × RateLimiter :=
  match rl.buckets.lookup operation with
  | some b =>
    let res := TokenBucket.acquire fuel b now tokens
    (res.1, { rl with buckets := setBucket rl.buckets operation res.2 })
  | none =>
    match rl.buckets.lookup "default" with
    | some b =>
      let res := TokenBucket.acquire fuel b now tokens
      (res.1, { rl with buckets := setBucket rl.buckets "default" res.2 })
    | none => (0, rl)

theorem lookup_mkBuckets_none (rate_limits : List (String × Nat)) (t0 : ℚ)
    (key : String) (h : rate_limits.lookup key = none) :
    (mkBuckets rate_limits t0).lookup key = none := by
  induction rate_limits with
  | nil => rfl
  | cons p rest ih =>
    rw [lookup_cons_eq] at h
    simp only [mkBuckets, List.map_cons]
    rw [lookup_cons_eq]
    by_cases hk : key = p.1
    · rw [if_pos hk] at h
      cases h
    · rw [if_neg hk] at h
      rw [if_neg hk]
      exact ih h

/-- C10 (confirmed): if the configured `rate_limits` contain neither the
requested operation nor `"default"`, `try_acquire` admits with `true` and
the blocking `acquire` returns immediately with zero wait, both leaving the
limiter unchanged, for any operation name and token count. -/
theorem rateLimiter_no_bucket (rate_limits : List (String × Nat)) (t0 : ℚ)
    (operation : String) (tokens now : ℚ) (fuel : Nat)
    (hop : rate_limits.lookup operation = none)
    (hdef : rate_limits.lookup "default" = none) :
    (RateLimiter.init rate_limits t0).tryAcquire operation tokens now =
      (true, RateLimiter.init rate_limits t0) ∧
    RateLimiter.acquire fuel (RateLimiter.init rate_limits t0) operation
      tokens now = (0, RateLimiter.init rate_limits t0) := by
  have h1 : ((RateLimiter.init rate_limits t0).buckets).lookup operation = none :=
    lookup_mkBuckets_none rate_limits t0 operation hop
  have h2 : ((RateLimiter.init rate_limits t0).buckets).lookup "default" = none :=
    lookup_mkBuckets_none rate_limits t0 "default" hdef
  constructor
  · rw [RateLimiter.tryAcquire, h1, h2]
  · rw [RateLimiter.acquire, h1, h2]

/-- C10 witness: a limiter configured only for `"search"` admits an
unconfigured `"index"` operation unconditionally. -/
theorem rateLimiter_no_bucket_witness :
    (RateLimiter.init [("search", 10)] 0).tryAcquire "index" 1 5 =
      (true, RateLimiter.init [("search", 10)] 0) ∧
    RateLimiter.acquire 7 (RateLimiter.init [("search", 10)] 0) "index" 1 5 =
      (0, RateLimiter.init [("search", 10)] 0) :=
  rateLimiter_no_bucket [("search", 10)] 0 "index" 1 5 7 (by decide) (by decide)

/-! ### C3: cache set/get round trip -/

/-- `Union[str, List[str]]` provider field of a request. -/
inductive ProviderSpec where
  | one (name : String)
  | many (names : List String)
deriving DecidableEq, Repr

/-- `SearchRequest` (models.py:150-157). -/
structure SearchRequest where
  provider : ProviderSpec
  query : String
  options : Option SearchOptions := none
  metadata : Option (List (String × String)) := none
deriving DecidableEq, Repr

/-- `ResponseMetadata` (models.py:138-147). -/
structure ResponseMetadata where
  total_results : Option Int := none
  query_time_ms : Int
  providers_used : List String
  providers_failed : Option (List String) := none
  cache_hit : Bool := false
  transformations_applied : Option (List String) := none
  filters_applied : Option (List String) := none
  spell_corrected : Bool := false
deriving DecidableEq, Repr

/-- `SearchResponse` (models.py:192-200); `errors` is a list of string
maps. -/
structure SearchResponse where
  status : String
  request_id : String
  results : List SearchResult
  metadata : ResponseMetadata
  errors : Option (List (List (String × String))) := none
  provider_used : Option String := none
  query_id : Option String := none
deriving DecidableEq, Repr

/-- JSON values, as produced by `json.dumps(response.model_dump())`;
integers and floats are kept apart, floats as exact rationals. -/
inductive Json where
  | null
  | bool (b : Bool)
  | int (n : Int)
  | rat (q : ℚ)
  | str (s : String)
  | arr (xs : List Json)
  | obj (fields : List (String × Json))

def encOptStr : Option String → Json
  | none => Json.null
  | some s => Json.str s

def encStrList (l : List String) : Json :=
  Json.arr (l.map Json.str)

def encOptStrList : Option (List String) → Json
  | none => Json.null
  | some l => encStrList l

def encStrMap (m : List (String × String)) : Json :=
  Json.obj (m.map (fun p => (p.1, Json.str p.2)))

def encOptStrMap : Option (List (String × String)) → Json
  | none => Json.null
  | some m => encStrMap m

def encOptInt : Option Int → Json
  | none => Json.null
  | some n => Json.int n

def encRatList (l : List ℚ) : Json :=
  Json.arr (l.map Json.rat)

def encOptRatList : Option (List ℚ) → Json
  | none => Json.null
  | some l => encRatList l

/-- `SearchResult.model_dump()` as a JSON object. -/
def encodeResult (r : SearchResult) : Json :=
  Json.obj [("id", Json.str r.id), ("title", encOptStr r.title),
    ("content", encOptStr r.content), ("url", encOptStr r.url),
    ("snippet", encOptStr r.snippet), ("score", Json.rat r.score),
    ("provider", Json.str r.provider), ("metadata", encOptStrMap r.metadata),
    ("highlights", encOptStrList r.highlights),
    ("explanation", encOptStr r.explanation),
    ("vector", encOptRatList r.vector)]

/-- `ResponseMetadata.model_dump()` as a JSON object. -/
def encodeMetadata (m : ResponseMetadata) : Json :=
  Json.obj [("total_results", encOptInt m.total_results),
    ("query_time_ms", Json.int m.query_time_ms),
    ("providers_used", encStrList m.providers_used),
    ("providers_failed", encOptStrList m.providers_failed),
    ("cache_hit", Json.bool m.cache_hit),
    ("transformations_applied", encOptStrList m.transformations_applied),
    ("filters_applied", encOptStrList m.filters_applied),
    ("spell_corrected", Json.bool m.spell_corrected)]

def encodeErrors : Option (List (List (String × String))) → Json
  | none => Json.null
  | some es => Json.arr (es.map encStrMap)

/-- `CacheManager._serialize_response`: `json.dumps(response.model_dump())`
at the JSON-tree level (`json.loads ∘ json.dumps` is the identity on such
trees). -/
def serializeResponse (resp : SearchResponse) : Json :=
  Json.obj [("status", Json.str resp.status),
    ("request_id", Json.str resp.request_id),
    ("results", Json.arr (resp.results.map encodeResult)),
    ("metadata", encodeMetadata resp.metadata),
    ("errors", encodeErrors resp.errors),
    ("provider_used", encOptStr resp.provider_used),
    ("query_id", encOptStr resp.query_id)]

def decStr : Json → Option String
  | Json.str s => some s
  | _ => none

def decOptStr : Json → Option (Option String)
  | Json.null => some none
  | Json.str s => some (some s)
  | _ => none

def decAll {α : Type} (f : Json → Option α) : List Json → Option (List α)
  | [] => some []
  | x :: xs =>
    match f x, decAll f xs with
    | some a, some l => some (a :: l)
    | _, _ => none

def decStrList : Json → Option (List String)
  | Json.arr xs => decAll decStr xs
  | _ => none

def decOptStrList : Json → Option (Option (List String))
  | Json.null => some none
  | Json.arr xs => (decAll decStr xs).map some
  | _ => none

def decPairStr : String × Json → Option (String × String)
  | (k, Json.str s) => some (k, s)
  | _ => none

def decAllPairs : List (String × Json) → Option (List (String × String))
  | [] => some []
  | p :: ps =>
    match decPairStr p, decAllPairs ps with
    | some q, some l => some (q :: l)
    | _, _ => none

def decStrMap : Json → Option (List (String × String))
  | Json.obj fields => decAllPairs fields
  | _ => none

def decOptStrMap : Json → Option (Option (List (String × String)))
  | Json.null => some none
  | Json.obj fields => (decAllPairs fields).map some
  | _ => none

def decOptInt : Json → Option (Option Int)
  | Json.null => some none
  | Json.int n => some (some n)
  | _ => none

def decInt : Json → Option Int
  | Json.int n => some n
  | _ => none

def decRat : Json → Option ℚ
  | Json.rat q => some q
  | _ => none

def decBool : Json → Option Bool
  | Json.bool b => some b
  | _ => none

def decOptRatList : Json → Option (Option (List ℚ))
  | Json.null => some none
  | Json.arr xs => (decAll decRat xs).map some
  | _ => none

/-- Pydantic validation of one serialized `SearchResult`. -/
def decodeResult : Json → Option SearchResult
  | Json.obj [(k1, j1), (k2, j2), (k3, j3), (k4, j4), (k5, j5), (k6, j6), (k7, j7), (k8, j8), (k9, j9), (k10, j10), (k11, j11)] =>
    if k1 = "id" ∧ k2 = "title" ∧ k3 = "content" ∧ k4 = "url" ∧ k5 = "snippet" ∧ k6 = "score" ∧ k7 = "provider" ∧ k8 = "metadata" ∧ k9 = "highlights" ∧ k10 = "explanation" ∧ k11 = "vector" then do
      let id ← decStr j1
      let title ← decOptStr j2
      let content ← decOptStr j3
      let url ← decOptStr j4
      let snippet ← decOptStr j5
      let score ← decRat j6
      let provider ← decStr j7
      let metadata ← decOptStrMap j8
      let highlights ← decOptStrList j9
      let explanation ← decOptStr j10
      let vector ← decOptRatList j11
      pure ⟨id, title, content, url, snippet, score, provider, metadata, highlights, explanation, vector⟩
    else none
  | _ => none

/-- Pydantic validation of serialized `ResponseMetadata`. -/
def decodeMetadata : Json → Option ResponseMetadata
  | Json.obj [(k1, j1), (k2, j2), (k3, j3), (k4, j4), (k5, j5), (k6, j6), (k7, j7), (k8, j8)] =>
    if k1 = "total_results" ∧ k2 = "query_time_ms" ∧ k3 = "providers_used" ∧ k4 = "providers_failed" ∧ k5 = "cache_hit" ∧ k6 = "transformations_applied" ∧ k7 = "filters_applied" ∧ k8 = "spell_corrected" then do
      let total_results ← decOptInt j1
      let query_time_ms ← decInt j2
      let providers_used ← decStrList j3
      let providers_failed ← decOptStrList j4
      let cache_hit ← decBool j5
      let transformations_applied ← decOptStrList j6
      let filters_applied ← decOptStrList j7
      let spell_corrected ← decBool j8
      pure ⟨total_results, query_time_ms, providers_used, providers_failed, cache_hit, transformations_applied, filters_applied, spell_corrected⟩
    else none
  | _ => none

def decodeErrors : Json → Option (Option (List (List (String × String))))
  | Json.null => some none
  | Json.arr xs => (decAll decStrMap xs).map some
  | _ => none

/-- `CacheManager._deserialize_response`:
`SearchResponse(**json.loads(data))`. -/
def deserializeResponse : Json → Option SearchResponse
  | Json.obj [(k1, j1), (k2, j2), (k3, j3), (k4, j4), (k5, j5), (k6, j6), (k7, j7)] =>
    if k1 = "status" ∧ k2 = "request_id" ∧ k3 = "results" ∧ k4 = "metadata" ∧ k5 = "errors" ∧ k6 = "provider_used" ∧ k7 = "query_id" then do
      let status ← decStr j1
      let request_id ← decStr j2
      let results ←
        match j3 with
        | Json.arr xs => decAll decodeResult xs
        | _ => none
      let metadata ← decodeMetadata j4
      let errors ← decodeErrors j5
      let provider_used ← decOptStr j6
      let query_id ← decOptStr j7
      pure ⟨status, request_id, results, metadata, errors, provider_used, query_id⟩
    else none
  | _ => none

theorem decOptStr_enc (o : Option String) : decOptStr (encOptStr o) = some o := by
  cases o <;> rfl

theorem decAll_enc {α : Type} (f : Json → Option α) (g : α → Json)
    (hfg : ∀ a, f (g a) = some a) (l : List α) :
    decAll f (l.map g) = some l := by
  induction l with
  | nil => rfl
  | cons a t ih => simp [decAll, hfg, ih]

theorem decStrList_enc (l : List String) : decStrList (encStrList l) = some l := by
  simpa [decStrList, encStrList] using decAll_enc decStr Json.str (fun a => rfl) l

theorem decOptStrList_enc (o : Option (List String)) :
    decOptStrList (encOptStrList o) = some o := by
  cases o with
  | none => rfl
  | some l =>
    simp [decOptStrList, encOptStrList, encStrList,
      decAll_enc decStr Json.str (fun a => rfl) l]

theorem decAllPairs_enc (m : List (String × String)) :
    decAllPairs (m.map (fun p => (p.1, Json.str p.2))) = some m := by
  induction m with
  | nil => rfl
  | cons p t ih =>
    rcases p with ⟨k, v⟩
    simp [decAllPairs, decPairStr, ih]

theorem decStrMap_enc (m : List (String × String)) :
    decStrMap (encStrMap m) = some m := by
  simpa [decStrMap, encStrMap] using decAllPairs_enc m

theorem decOptStrMap_enc (o : Option (List (String × String))) :
    decOptStrMap (encOptStrMap o) = some o := by
  cases o with
  | none => rfl
  | some m => simp [decOptStrMap, encOptStrMap, encStrMap, decAllPairs_enc m]

theorem decOptInt_enc (o : Option Int) : decOptInt (encOptInt o) = some o := by
  cases o <;> rfl

theorem decOptRatList_enc (o : Option (List ℚ)) :
    decOptRatList (encOptRatList o) = some o := by
  cases o with
  | none => rfl
  | some l =>
    simp [decOptRatList, encOptRatList, encRatList,
      decAll_enc decRat Json.rat (fun a => rfl) l]

set_option maxHeartbeats 1000000 in
theorem decodeResult_enc (r : SearchResult) :
    decodeResult (encodeResult r) = some r := by
  simp [encodeResult, decodeResult, decStr, decRat, decOptStr_enc,
    decOptStrMap_enc, decOptStrList_enc, decOptRatList_enc]

theorem decodeMetadata_enc (m : ResponseMetadata) :
    decodeMetadata (encodeMetadata m) = some m := by
  simp [encodeMetadata, decodeMetadata, decOptInt_enc, decInt, decStrList_enc,
    decOptStrList_enc, decBool]

theorem decodeErrors_enc (o : Option (List (List (String × String)))) :
    decodeErrors (encodeErrors o) = some o := by
  cases o with
  | none => rfl
  | some es =>
    simp [decodeErrors, encodeErrors, decAll_enc decStrMap encStrMap decStrMap_enc es]

/-- Deserialization is a left inverse of serialization. -/
theorem deserialize_serialize (resp : SearchResponse) :
    deserializeResponse (serializeResponse resp) = some resp := by
  simp [serializeResponse, deserializeResponse, decStr,
    decAll_enc decodeResult encodeResult decodeResult_enc,
    decodeMetadata_enc, decodeErrors_enc, decOptStr_enc]

/-- Generic ordered-dict assignment `d[k] = v`: update in place, append new
keys at the end. -/
def setAssoc {α : Type} : List (String × α) → String → α → List (String × α)
  | [], k, v => [(k, v)]
  | (k', v') :: rest, k, v =>
    if k' = k then (k', v) :: rest else (k', v') :: setAssoc rest k v

theorem lookup_setAssoc {α : Type} (m : List (String × α)) (k : String)
    (v : α) : (setAssoc m k v).lookup k = some v := by
  induction m with
  | nil => simp [setAssoc, lookup_cons_eq]
  | cons p rest ih =>
    rcases p with ⟨k', v'⟩
    by_cases h : k' = k
    · subst h
      simp [setAssoc, lookup_cons_eq]
    · rw [setAssoc, if_neg h, lookup_cons_eq, if_neg (fun e => h e.symm)]
      exact ih

/-- Ascending insertion for Python `sorted` on strings. -/
def insertStrAsc (s : String) : List String → List String
  | [] => [s]
  | t :: rest => if s ≤ t then s :: t :: rest else t :: insertStrAsc s rest

/-- Python `sorted` on provider names. -/
def sortStrings : List String → List String
  | [] => []
  | s :: rest => insertStrAsc s (sortStrings rest)

/-- `options.cache.key` when present and truthy (cache.py:166). -/
def customKey : Option SearchOptions → Option String
  | some o =>
    match o.cache with
    | some c =>
      match c.key with
      | some k => if k.isEmpty then none else some k
      | none => none
    | none => none
  | none => none

/-- Canonical dump of the options
(`json.dumps(options.model_dump(), sort_keys=True)`), modelled by the
derived `Repr` rendering: the claims rely only on this being a
deterministic function of the options. -/
def optionsCanonical (o : SearchOptions) : String := reprStr o

/-- `CacheManager._generate_cache_key`. -/
def generateCacheKey (req : SearchRequest) : String :=
  match customKey req.options with
  | some k => "uir:custom:" ++ k
  | none =>
    let providersPart :=
      match req.provider with
      | ProviderSpec.many l => String.intercalate "," (sortStrings l)
      | ProviderSpec.one s => s
    let base := [providersPart, md5hex req.query]
    let keyParts :=
      match req.options with
      | some o => base ++ [(md5hex (optionsCanonical o)).take 8]
      | none => base
    "uir:v1:" ++ String.intercalate ":" keyParts

/-- The guard `request.options and request.options.cache and not
request.options.cache.enabled` (cache.py:65 and cache.py:97). -/
def cacheDisabled : Option SearchOptions → Bool
  | some o =>
    match o.cache with
    | some c => !c.enabled
    | none => false
  | none => false

/-- `CacheManager` state over the mock Redis backend (`MockRedisAPI.data`,
`.expires`) plus the in-process `local_cache` (entry = response with its
`expires_at`). -/
structure CacheManager where
  default_ttl : Nat := 3600
  max_cache_size : Nat := 10000
  redisData : List (String × Json) := []
  redisExpires : List (String × Nat) := []
  localCache : List (String × SearchResponse × Nat) := []

/-- `CacheManager._evict_local_cache` at time `now`: purge expired entries,
then if still oversized drop the oldest-expiring 20% (stable ascending sort
by expiry, modelled as descending sort of the negated key). -/
def CacheManager.evictLocal (cm : CacheManager) (now : Nat) : CacheManager :=
  let lc := cm.localCache.filter (fun p => decide (now < p.2.2))
  if cm.max_cache_size < lc.length then
    let doomed := ((sortDescBy (fun p : String × SearchResponse × Nat => -((p.2.2 : ℚ))) lc).take (lc.length / 5)).map Prod.fst
    { cm with localCache := lc.filter (fun p => !(doomed.contains p.1)) }
  else { cm with localCache := lc }

/-- `CacheManager.set` at time `now`. -/
def CacheManager.set (cm : CacheManager) (req : SearchRequest)
    (resp : SearchResponse) (now : Nat) : CacheManager :=
  if cacheDisabled req.options then cm
  else
    let key := generateCacheKey req
    let ttl := cacheSetTTL cm.default_ttl req.options
    let cm1 := { cm with redisData := setAssoc cm.redisData key (serializeResponse resp), redisExpires := setAssoc cm.redisExpires key (now + ttl), localCache := setAssoc cm.localCache key (resp, now + ttl) }
    if cm1.max_cache_size < cm1.localCache.length then cm1.evictLocal now
    else cm1

/-- `CacheManager.get` at time `now`: the Redis tier first (the mock's
`get` ignores expiry), then the local tier with its expiry check (expired
entries are deleted).  Returns the response, if any, with the updated
manager. -/
def CacheManager.get (cm : CacheManager) (req : SearchRequest) (now : Nat) :
    Option SearchResponse × CacheManager :=
  if cacheDisabled req.options then (none, cm)
  else
    let key := generateCacheKey req
    match cm.redisData.lookup key with
    | some data => (deserializeResponse data, cm)
    | none =>
      match cm.localCache.lookup key with
      | some entry =>
        if now < entry.2 then (some entry.1, cm)
        else (none, { cm with localCache := cm.localCache.filter (fun p => decide (p.1 ≠ key)) })
      | none => (none, cm)

theorem evictLocal_redisData (cm : CacheManager) (now : Nat) :
    (cm.evictLocal now).redisData = cm.redisData := by
  unfold CacheManager.evictLocal
  dsimp only
  split <;> rfl

theorem set_redisData (cm : CacheManager) (req : SearchRequest)
    (resp : SearchResponse) (now : Nat)
    (h : cacheDisabled req.options = false) :
    (cm.set req resp now).redisData =
      setAssoc cm.redisData (generateCacheKey req) (serializeResponse resp) := by
  unfold CacheManager.set
  rw [if_neg (by simp [h])]
  dsimp only
  split
  · rw [evictLocal_redisData]
  · rfl

def c3req : SearchRequest := { provider := ProviderSpec.one "g", query := "q" }

def c3resp : SearchResponse :=
  { status := "success", request_id := "r1", results := [], metadata := { query_time_ms := 5, providers_used := ["g"] } }

/-- C3 counterexample: after `set; get` the retrieved response carries
`metadata.cache_hit = false` exactly as stored — neither `CacheManager.get`
nor the router's cache-hit path asserts it true, contrary to the claim. -/
theorem c3_counterexample :
    ((((({} : CacheManager).set c3req c3resp 0).get c3req 0).1).map
      (fun r => r.metadata.cache_hit)) = some false ∧
    ((((({} : CacheManager).set c3req c3resp 0).get c3req 0).1).map
      (fun r => r.metadata.cache_hit)) ≠ some true := by
  refine ⟨rfl, by decide⟩

/-- C3 amended: for requests that do not disable caching, `set` then `get`
returns a response equal to the stored one in every field;
`metadata.cache_hit` is returned exactly as stored, never asserted true on
retrieval. -/
theorem cache_set_get_roundtrip (cm : CacheManager) (req : SearchRequest)
    (resp : SearchResponse) (now : Nat)
    (h : cacheDisabled req.options = false) :
    ((cm.set req resp now).get req now).1 = some resp := by
  have hrd := set_redisData cm req resp now h
  unfold CacheManager.get
  rw [if_neg (by simp [h]), hrd]
  dsimp only
  rw [lookup_setAssoc]
  simp [deserialize_serialize]

/-- C3 witness: the amended round trip at a concrete request/response. -/
theorem cache_set_get_roundtrip_witness :
    ((({} : CacheManager).set c3req c3resp 7).get c3req 7).1 = some c3resp :=
  cache_set_get_roundtrip {} c3req c3resp 7 rfl

/-! ### C9: mock spell checker (src/uir/mocks/spell_checker.py)

The checker is modelled over ASCII text: `\w` and `str.isalpha` are the
ASCII word/letter classes, and `SequenceMatcher.ratio()` float-threshold
comparisons are modelled as exact rational comparisons by
cross-multiplication (for the short words involved the correctly rounded
float quotients order exactly as the rationals). -/

/-- ASCII `\w` (regex word character). -/
def pyIsWordCh (c : Char) : Bool := c.isAlpha || c.isDigit || c = '_'

/-- Maximal runs of same-class characters: the token stream of
`re.findall(r'\b\w+\b|\W+', text)`. -/
def runs : List Char → List (List Char)
  | [] => []
  | c :: cs =>
    match runs cs with
    | [] => [[c]]
    | [] :: rest => [c] :: rest
    | (d :: ds) :: rest =>
      if pyIsWordCh c = pyIsWordCh d then (c :: d :: ds) :: rest
      else [c] :: (d :: ds) :: rest

/-- `str.lower`. -/
def lowerW (w : List Char) : List Char := w.map Char.toLower

/-- `str.upper`. -/
def upperW (w : List Char) : List Char := w.map Char.toUpper

/-- `str.title` on a single alphabetic word. -/
def titleW : List Char → List Char
  | [] => []
  | c :: cs => c.toUpper :: cs.map Char.toLower

/-- `str.isupper` on a nonempty alphabetic word. -/
def isUpperW (w : List Char) : Bool := w.all Char.isUpper

/-- `str.istitle` on a single alphabetic word. -/
def isTitleW : List Char → Bool
  | [] => false
  | c :: cs => c.isUpper && cs.all Char.isLower

/-- `str.isalpha`: nonempty, all (ASCII) letters. -/
def isAlphaW (w : List Char) : Bool := !w.isEmpty && w.all Char.isAlpha

/-- The `corrections` dictionary of `MockSpellChecker.__init__`, in
insertion order (the duplicate `"recieve"` key collapses to one entry,
as in a Python dict literal). -/
def corrections : List (List Char × List Char) := [
  ("transformr".data, "transformer".data),
  ("transformers".data, "transformers".data),
  ("atention".data, "attention".data),
  ("mechanizm".data, "mechanism".data),
  ("machien".data, "machine".data),
  ("leraning".data, "learning".data),
  ("learnign".data, "learning".data),
  ("artifical".data, "artificial".data),
  ("inteligence".data, "intelligence".data),
  ("nueral".data, "neural".data),
  ("netowrk".data, "network".data),
  ("netwrok".data, "network".data),
  ("algoritm".data, "algorithm".data),
  ("algorithmn".data, "algorithm".data),
  ("serch".data, "search".data),
  ("seach".data, "search".data),
  ("databse".data, "database".data),
  ("databas".data, "database".data),
  ("retreival".data, "retrieval".data),
  ("retreval".data, "retrieval".data),
  ("informaton".data, "information".data),
  ("informtion".data, "information".data),
  ("teh".data, "the".data),
  ("hte".data, "the".data),
  ("adn".data, "and".data),
  ("nad".data, "and".data),
  ("wiht".data, "with".data),
  ("wihth".data, "with".data),
  ("whith".data, "with".data),
  ("taht".data, "that".data),
  ("thta".data, "that".data),
  ("wich".data, "which".data),
  ("whcih".data, "which".data),
  ("recieve".data, "receive".data),
  ("seperate".data, "separate".data),
  ("seprate".data, "separate".data),
  ("occured".data, "occurred".data),
  ("occure".data, "occur".data),
  ("occurence".data, "occurrence".data),
  ("begining".data, "beginning".data),
  ("begging".data, "beginning".data),
  ("comming".data, "coming".data),
  ("runing".data, "running".data),
  ("geting".data, "getting".data),
  ("puting".data, "putting".data),
  ("writting".data, "writing".data),
  ("writng".data, "writing".data),
  ("reserch".data, "research".data),
  ("reasearch".data, "research".data),
  ("publshed".data, "published".data),
  ("publised".data, "published".data),
  ("anaylsis".data, "analysis".data),
  ("analisys".data, "analysis".data),
  ("expirment".data, "experiment".data),
  ("experment".data, "experiment".data),
  ("comparision".data, "comparison".data),
  ("compairson".data, "comparison".data),
  ("performace".data, "performance".data),
  ("preformance".data, "performance".data),
  ("assesment".data, "assessment".data),
  ("assesments".data, "assessments".data),
  ("docuemnt".data, "document".data),
  ("documnet".data, "document".data),
  ("relavent".data, "relevant".data),
  ("relevent".data, "relevant".data),
  ("similiar".data, "similar".data),
  ("simular".data, "similar".data),
  ("accross".data, "across".data),
  ("acros".data, "across".data),
  ("procces".data, "process".data),
  ("prcess".data, "process".data),
  ("procesing".data, "processing".data),
  ("processng".data, "processing".data)]

/-- The `valid_words` reference lexicon of `MockSpellChecker.__init__`;
the Python set is modelled as the deduplicated literal in source order
(every result proved below is insensitive to this order). -/
def validWords : List (List Char) := [
  "machine".data,
  "learning".data,
  "deep".data,
  "neural".data,
  "network".data,
  "transformer".data,
  "attention".data,
  "mechanism".data,
  "algorithm".data,
  "algorithms".data,
  "search".data,
  "retrieval".data,
  "database".data,
  "document".data,
  "query".data,
  "vector".data,
  "semantic".data,
  "model".data,
  "training".data,
  "inference".data,
  "prediction".data,
  "classification".data,
  "clustering".data,
  "supervised".data,
  "unsupervised".data,
  "reinforcement".data,
  "artificial".data,
  "intelligence".data,
  "data".data,
  "mining".data,
  "analysis".data,
  "processing".data,
  "computer".data,
  "vision".data,
  "language".data,
  "natural".data,
  "embedding".data,
  "similarity".data,
  "distance".data,
  "cosine".data,
  "euclidean".data,
  "research".data,
  "paper".data,
  "study".data,
  "experiment".data,
  "result".data,
  "conclusion".data,
  "method".data,
  "approach".data,
  "technique".data,
  "framework".data,
  "system".data,
  "performance".data,
  "accuracy".data,
  "precision".data,
  "recall".data,
  "score".data]

/-- `|m - n|` on naturals. -/
def natAbsDiff (m n : Nat) : Nat := (m - n) + (n - m)

/-- Ascending positions of `c` in `b` (difflib's `b2j[c]`). -/
def positionsAux (c : Char) : List Char → Nat → List Nat
  | [], _ => []
  | d :: ds, i =>
    if d = c then i :: positionsAux c ds (i + 1) else positionsAux c ds (i + 1)

def positions (c : Char) (b : List Char) : List Nat := positionsAux c b 0

def lookupD (m : List (Nat × Nat)) (k : Nat) : Nat := (m.lookup k).getD 0

/-- Inner loop of difflib's `find_longest_match` over the ascending
positions of `a[i]` in `b`: `continue` below `blo`, `break` at `bhi`,
extend the diagonal run length and track the first strictly-best match. -/
def flmJ (blo bhi i : Nat) (j2len : List (Nat × Nat)) :
    List Nat → List (Nat × Nat) → Nat × Nat × Nat →
    List (Nat × Nat) × (Nat × Nat × Nat)
  | [], newj2len, best => (newj2len, best)
  | j :: js, newj2len, best =>
    if j < blo then flmJ blo bhi i j2len js newj2len best
    else if bhi ≤ j then (newj2len, best)
    else
      let k := (if j = 0 then 0 else lookupD j2len (j - 1)) + 1
      let best' := if best.2.2 < k then (i + 1 - k, j + 1 - k, k) else best
      flmJ blo bhi i j2len js ((j, k) :: newj2len) best'

/-- Outer loop of `find_longest_match` over `i ∈ [alo, ahi)`. -/
def flmI (a b : List Char) (blo bhi : Nat) :
    List Nat → List (Nat × Nat) → Nat × Nat × Nat → Nat × Nat × Nat
  | [], _, best => best
  | i :: is_, j2len, best =>
    let r := flmJ blo bhi i j2len (positions (a.getD i ' ') b) [] best
    flmI a b blo bhi is_ r.1 r.2

/-- The two non-junk extension loops of `find_longest_match` (the junk
predicate is constantly false here: no junk argument, strings far below the
autojunk threshold). -/
def extendBack (a b : List Char) (alo blo : Nat) :
    Nat → Nat × Nat × Nat → Nat × Nat × Nat
  | 0, best => best
  | fuel + 1, (besti, bestj, size) =>
    if alo < besti ∧ blo < bestj ∧
        a.getD (besti - 1) ' ' = b.getD (bestj - 1) ' ' then
      extendBack a b alo blo fuel (besti - 1, bestj - 1, size + 1)
    else (besti, bestj, size)

def extendFwd (a b : List Char) (ahi bhi : Nat) :
    Nat → Nat × Nat × Nat → Nat × Nat × Nat
  | 0, best => best
  | fuel + 1, (besti, bestj, size) =>
    if besti + size < ahi ∧ bestj + size < bhi ∧
        a.getD (besti + size) ' ' = b.getD (bestj + size) ' ' then
      extendFwd a b ahi bhi fuel (besti, bestj, size + 1)
    else (besti, bestj, size)

/-- `SequenceMatcher.find_longest_match` on `a[alo:ahi]` / `b[blo:bhi]`. -/
def findLongestMatch (a b : List Char) (alo ahi blo bhi : Nat) :
    Nat × Nat × Nat :=
  let best := flmI a b blo bhi (List.range' alo (ahi - alo)) [] (alo, blo, 0)
  let best := extendBack a b alo blo (alo + blo + best.2.2 + 1) best
  extendFwd a b ahi bhi (ahi + bhi + 1) best

/-- Total size of the matching blocks (`get_matching_blocks` recursion);
`ratio()` is `2 * matchesTotal / (len a + len b)`.  The fuel dominates the
recursion depth (each level splits a strictly shorter interval). -/
def matchSum (a b : List Char) : Nat → Nat → Nat → Nat → Nat → Nat
  | 0, _, _, _, _ => 0
  | fuel + 1, alo, ahi, blo, bhi =>
    let m := findLongestMatch a b alo ahi blo bhi
    if m.2.2 = 0 then 0
    else
      matchSum a b fuel alo m.1 blo m.2.1 + m.2.2 +
        matchSum a b fuel (m.1 + m.2.2) ahi (m.2.1 + m.2.2) bhi

def matchesTotal (a b : List Char) : Nat :=
  matchSum a b (a.length + b.length + 1) 0 a.length 0 b.length

/-- Loop of `_fuzzy_correct` over `valid_words`.  The running best is
`(best_match, M, T)` with best ratio `2*M/T` (initially `0.0` as `(0, 1)`);
`ratio > 0.8` is `10*M > 4*T` and `ratio > best_ratio` is
`M * bT > bM * T`. -/
def fuzzyValidLoop (word : List Char) :
    List (List Char) → List Char × Nat × Nat → List Char × Nat × Nat
  | [], best => best
  | v :: vs, (bm, bM, bT) =>
    if natAbsDiff word.length v.length ≤ 2 then
      let M := matchesTotal word v
      let T := word.length + v.length
      if 10 * M > 4 * T ∧ M * bT > bM * T then fuzzyValidLoop word vs (v, M, T)
      else fuzzyValidLoop word vs (bm, bM, bT)
    else fuzzyValidLoop word vs (bm, bM, bT)

/-- Loop of `_fuzzy_correct` over the correction keys (dict insertion
order); `ratio > 0.85` is `40*M > 17*T`. -/
def fuzzyKeyLoop (word : List Char) :
    List (List Char × List Char) → List Char × Nat × Nat →
    List Char × Nat × Nat
  | [], best => best
  | (typo, val) :: rest, (bm, bM, bT) =>
    if natAbsDiff word.length typo.length ≤ 1 then
      let M := matchesTotal word typo
      let T := word.length + typo.length
      if 40 * M > 17 * T ∧ M * bT > bM * T then fuzzyKeyLoop word rest (val, M, T)
      else fuzzyKeyLoop word rest (bm, bM, bT)
    else fuzzyKeyLoop word rest (bm, bM, bT)

/-- `MockSpellChecker._fuzzy_correct`. -/
def fuzzyCorrect (word : List Char) : List Char :=
  if word.length < 3 then word
  else
    let best := fuzzyKeyLoop word corrections
      (fuzzyValidLoop word validWords (word, 0, 1))
    if 10 * best.2.1 > 4 * best.2.2 then best.1 else word

/-- Case restoration applied to a correction of `orig`. -/
def applyCase (orig corrected : List Char) : List Char :=
  if isUpperW orig then upperW corrected
  else if isTitleW orig then titleW corrected
  else corrected

/-- The per-token body of `MockSpellChecker.correct`. -/
def correctToken (t : List Char) : List Char :=
  if isAlphaW t then
    match corrections.lookup (lowerW t) with
    | some c => applyCase t c
    | none =>
      if fuzzyCorrect (lowerW t) = lowerW t then t
      else applyCase t (fuzzyCorrect (lowerW t))
  else t

/-- `MockSpellChecker.correct` on a character list. -/
def correct (s : List Char) : List Char :=
  ((runs s).map correctToken).flatten

/-- `MockSpellChecker.correct`. -/
def correctStr (s : String) : String := ⟨correct s.data⟩

/-! #### Token stream lemmas -/

/-- The character class of a token (its head's word-class). -/
def wclass (t : List Char) : Bool := pyIsWordCh (t.headD 'a')

theorem runs_cons (c : Char) (cs : List Char) :
    runs (c :: cs) =
      match runs cs with
      | [] => [[c]]
      | [] :: rest => [c] :: rest
      | (d :: ds) :: rest =>
        if pyIsWordCh c = pyIsWordCh d then (c :: d :: ds) :: rest
        else [c] :: (d :: ds) :: rest := rfl

theorem runs_cons_of_nil (c : Char) (cs : List Char) (h : runs cs = []) :
    runs (c :: cs) = [[c]] := by
  rw [runs_cons, h]

theorem runs_cons_of_cons (c d : Char) (cs ds : List Char)
    (rest : List (List Char)) (h : runs cs = (d :: ds) :: rest) :
    runs (c :: cs) =
      if pyIsWordCh c = pyIsWordCh d then (c :: d :: ds) :: rest
      else [c] :: (d :: ds) :: rest := by
  rw [runs_cons, h]

theorem runs_flatten (l : List Char) : (runs l).flatten = l := by
  induction l with
  | nil => rfl
  | cons c cs ih =>
    rcases hr : runs cs with _ | ⟨t, rest⟩
    · rw [hr] at ih
      simp only [List.flatten_nil] at ih
      subst ih
      rfl
    · rcases t with _ | ⟨d, ds⟩
      · rw [hr] at ih
        simp only [List.flatten_cons, List.nil_append] at ih
        rw [runs_cons, hr]
        simp [ih]
      · rw [hr] at ih
        simp only [List.flatten_cons] at ih
        rw [runs_cons_of_cons c d cs ds rest hr]
        by_cases hcd : pyIsWordCh c = pyIsWordCh d
        · simp only [if_pos hcd, List.flatten_cons]
          simp [ih]
        · simp only [if_neg hcd, List.flatten_cons]
          simp [ih]

theorem ne_nil_of_mem_runs (l : List Char) : ∀ t ∈ runs l, t ≠ [] := by
  induction l with
  | nil => intro t ht; cases ht
  | cons c cs ih =>
    intro t ht
    rcases hr : runs cs with _ | ⟨u, rest⟩
    · rw [runs_cons_of_nil c cs hr] at ht
      simp only [List.mem_singleton] at ht
      subst ht
      simp
    · rcases u with _ | ⟨d, ds⟩
      · exact absurd rfl (ih [] (hr ▸ List.mem_cons_self [] rest))
      · rw [runs_cons_of_cons c d cs ds rest hr] at ht
        by_cases hcd : pyIsWordCh c = pyIsWordCh d
        · rw [if_pos hcd] at ht
          rcases List.mem_cons.1 ht with h | h
          · subst h; simp
          · exact ih t (hr ▸ List.mem_cons_of_mem _ h)
        · rw [if_neg hcd] at ht
          rcases List.mem_cons.1 ht with h | h
          · subst h; simp
          · exact ih t (hr ▸ h)

theorem homog_of_mem_runs (l : List Char) :
    ∀ t ∈ runs l, ∀ x ∈ t, pyIsWordCh x = wclass t := by
  induction l with
  | nil => intro t ht; cases ht
  | cons c cs ih =>
    intro t ht x hx
    rcases hr : runs cs with _ | ⟨u, rest⟩
    · rw [runs_cons_of_nil c cs hr] at ht
      simp only [List.mem_singleton] at ht
      subst ht
      simp only [List.mem_singleton] at hx
      subst hx
      rfl
    · rcases u with _ | ⟨d, ds⟩
      · exact absurd rfl (ne_nil_of_mem_runs cs [] (hr ▸ List.mem_cons_self [] rest))
      · rw [runs_cons_of_cons c d cs ds rest hr] at ht
        by_cases hcd : pyIsWordCh c = pyIsWordCh d
        · rw [if_pos hcd] at ht
          rcases List.mem_cons.1 ht with h | h
          · subst h
            rcases List.mem_cons.1 hx with h2 | h2
            · subst h2; rfl
            · have := ih (d :: ds) (hr ▸ List.mem_cons_self _ _) x h2
              calc pyIsWordCh x = wclass (d :: ds) := this
                _ = pyIsWordCh d := rfl
                _ = pyIsWordCh c := hcd.symm
                _ = wclass (c :: d :: ds) := rfl
          · exact ih t (hr ▸ List.mem_cons_of_mem _ h) x hx
        · rw [if_neg hcd] at ht
          rcases List.mem_cons.1 ht with h | h
          · subst h
            simp only [List.mem_singleton] at hx
            subst hx
            rfl
          · exact ih t (hr ▸ h) x hx

theorem chain_runs (l : List Char) :
    (runs l).Chain' (fun t u => wclass t ≠ wclass u) := by
  induction l with
  | nil => simp [runs]
  | cons c cs ih =>
    rcases hr : runs cs with _ | ⟨u, rest⟩
    · rw [runs_cons_of_nil c cs hr]
      simp
    · rcases u with _ | ⟨d, ds⟩
      · exact absurd rfl (ne_nil_of_mem_runs cs [] (hr ▸ List.mem_cons_self [] rest))
      · rw [runs_cons_of_cons c d cs ds rest hr]
        rw [hr] at ih
        by_cases hcd : pyIsWordCh c = pyIsWordCh d
        · rw [if_pos hcd]
          rcases List.chain'_cons'.1 ih with ⟨hhead, htail⟩
          refine List.chain'_cons'.2 ⟨?_, htail⟩
          intro b hb
          have := hhead b hb
          intro he
          exact this (by
            calc wclass (d :: ds) = pyIsWordCh d := rfl
              _ = pyIsWordCh c := hcd.symm
              _ = wclass (c :: d :: ds) := rfl
              _ = wclass b := he)
        · rw [if_neg hcd]
          refine List.chain'_cons'.2 ⟨?_, ih⟩
          intro b hb
          simp only [List.head?_cons, Option.mem_def, Option.some.injEq] at hb
          subst hb
          intro he
          exact hcd (by
            calc pyIsWordCh c = wclass [c] := rfl
              _ = wclass (d :: ds) := he
              _ = pyIsWordCh d := rfl)

theorem runs_append (t' : List Char) :
    ∀ (c : Char) (l : List Char),
      (∀ x ∈ c :: t', pyIsWordCh x = pyIsWordCh c) →
      (∀ d, l.head? = some d → pyIsWordCh d ≠ pyIsWordCh c) →
      runs ((c :: t') ++ l) = (c :: t') :: runs l := by
  induction t' with
  | nil =>
    intro c l _ hbound
    rcases hr : runs l with _ | ⟨u, rest⟩
    · rw [List.cons_append, List.nil_append, runs_cons_of_nil c l hr]
    · rcases u with _ | ⟨d, ds⟩
      · exact absurd rfl (ne_nil_of_mem_runs l [] (hr ▸ List.mem_cons_self [] rest))
      · have hl : l.head? = some d := by
          rw [← runs_flatten l, hr]
          rfl
        rw [List.cons_append, List.nil_append,
          runs_cons_of_cons c d l ds rest hr,
          if_neg (fun e => hbound d hl e.symm)]
  | cons e t'' ih =>
    intro c l hom hbound
    have hce : pyIsWordCh e = pyIsWordCh c :=
      hom e (List.mem_cons_of_mem _ (List.mem_cons_self _ _))
    have hom' : ∀ x ∈ e :: t'', pyIsWordCh x = pyIsWordCh e := by
      intro x hx
      rw [hom x (List.mem_cons_of_mem _ hx), hce]
    have hbound' : ∀ d, l.head? = some d → pyIsWordCh d ≠ pyIsWordCh e := by
      intro d hd he
      exact hbound d hd (he.trans hce)
    have hrec := ih e l hom' hbound'
    simp only [List.cons_append] at hrec ⊢
    rw [runs_cons_of_cons c e (e :: (t'' ++ l)) t'' (runs l) hrec, if_pos hce.symm]

theorem runs_flatten_good (ts : List (List Char))
    (h1 : ∀ t ∈ ts, t ≠ [])
    (h2 : ∀ t ∈ ts, ∀ x ∈ t, pyIsWordCh x = wclass t)
    (h3 : ts.Chain' (fun t u => wclass t ≠ wclass u)) :
    runs ts.flatten = ts := by
  induction ts with
  | nil => rfl
  | cons t rest ih =>
    rcases htc : t with _ | ⟨c, t'⟩
    · exact absurd htc (h1 t (List.mem_cons_self _ _))
    · subst htc
      rw [List.flatten_cons]
      have hom : ∀ x ∈ c :: t', pyIsWordCh x = pyIsWordCh c := by
        intro x hx
        exact h2 (c :: t') (List.mem_cons_self _ _) x hx
      have hbound : ∀ d, (rest.flatten).head? = some d →
          pyIsWordCh d ≠ pyIsWordCh c := by
        intro d hd he
        rcases hrest : rest with _ | ⟨u, rest'⟩
        · rw [hrest] at hd
          cases hd
        · have humem : u ∈ (c :: t') :: rest :=
            List.mem_cons_of_mem _ (hrest ▸ List.mem_cons_self u rest')
          rcases huc : u with _ | ⟨e, u'⟩
          · exact absurd huc (h1 u humem)
          · rw [hrest, huc] at hd
            simp only [List.flatten_cons, List.cons_append, List.head?_cons] at hd
            injection hd with hd
            have hchain : wclass (c :: t') ≠ wclass u := by
              have h3' := h3
              rw [hrest] at h3'
              exact (List.chain'_cons.1 h3').1
            rw [huc] at hchain
            refine hchain ?_
            show pyIsWordCh c = pyIsWordCh e
            rw [← hd] at he
            exact he.symm
      rw [runs_append t' c rest.flatten hom hbound]
      have ihr := ih (fun u hu => h1 u (List.mem_cons_of_mem _ hu))
        (fun u hu => h2 u (List.mem_cons_of_mem _ hu)) h3.tail
      rw [ihr]

/-! #### Correction output membership and the finite dictionary facts -/

theorem applyCase_mem (orig c : List Char) :
    applyCase orig c = c ∨ applyCase orig c = upperW c ∨
      applyCase orig c = titleW c := by
  unfold applyCase
  split
  · right; left; rfl
  · split
    · right; right; rfl
    · left; rfl

theorem lookup_snd_mem {α β : Type} [BEq α] (l : List (α × β)) (k : α) (v : β)
    (h : l.lookup k = some v) : v ∈ l.map Prod.snd := by
  induction l with
  | nil => cases h
  | cons p rest ih =>
    rcases p with ⟨k', v'⟩
    rw [List.lookup_cons] at h
    cases hk : (k == k') with
    | true =>
      rw [hk] at h
      injection h with h
      subst h
      exact List.mem_cons_self _ _
    | false =>
      rw [hk] at h
      exact List.mem_cons_of_mem _ (ih h)

theorem fuzzyValidLoop_mem (word : List Char) :
    ∀ (vs : List (List Char)) (best : List Char × Nat × Nat),
      (fuzzyValidLoop word vs best).1 = best.1 ∨
        (fuzzyValidLoop word vs best).1 ∈ vs := by
  intro vs
  induction vs with
  | nil => intro best; left; rfl
  | cons v rest ih =>
    intro best
    rcases best with ⟨bm, bM, bT⟩
    unfold fuzzyValidLoop
    dsimp only
    split
    · split
      · rcases ih _ with h | h
        · rw [h]; right; exact List.mem_cons_self _ _
        · right; exact List.mem_cons_of_mem _ h
      · rcases ih _ with h | h
        · rw [h]; left; rfl
        · right; exact List.mem_cons_of_mem _ h
    · rcases ih _ with h | h
      · rw [h]; left; rfl
      · right; exact List.mem_cons_of_mem _ h

theorem fuzzyKeyLoop_mem (word : List Char) :
    ∀ (ps : List (List Char × List Char)) (best : List Char × Nat × Nat),
      (fuzzyKeyLoop word ps best).1 = best.1 ∨
        (fuzzyKeyLoop word ps best).1 ∈ ps.map Prod.snd := by
  intro ps
  induction ps with
  | nil => intro best; left; rfl
  | cons p rest ih =>
    intro best
    rcases best with ⟨bm, bM, bT⟩
    rcases p with ⟨typo, val⟩
    unfold fuzzyKeyLoop
    dsimp only
    split
    · split
      · rcases ih _ with h | h
        · rw [h]; right; exact List.mem_cons_self _ _
        · right; exact List.mem_cons_of_mem _ h
      · rcases ih _ with h | h
        · rw [h]; left; rfl
        · right; exact List.mem_cons_of_mem _ h
    · rcases ih _ with h | h
      · rw [h]; left; rfl
      · right; exact List.mem_cons_of_mem _ h

theorem fuzzyCorrect_mem (w : List Char) :
    fuzzyCorrect w = w ∨ fuzzyCorrect w ∈ validWords ∨
      fuzzyCorrect w ∈ corrections.map Prod.snd := by
  unfold fuzzyCorrect
  split
  · left; rfl
  · dsimp only
    split
    · rcases fuzzyKeyLoop_mem w corrections
        (fuzzyValidLoop w validWords (w, 0, 1)) with h | h
      · rcases fuzzyValidLoop_mem w validWords (w, 0, 1) with h2 | h2
        · rw [h, h2]; left; rfl
        · rw [h]; right; left; exact h2
      · right; right; exact h
    · left; rfl

/-- Every string the checker can substitute for a word. -/
def cands : List (List Char) := validWords ++ corrections.map Prod.snd

theorem correctToken_eq_of_lookup_some (t c : List Char)
    (ha : isAlphaW t = true) (h : corrections.lookup (lowerW t) = some c) :
    correctToken t = applyCase t c := by
  unfold correctToken
  rw [if_pos ha, h]

theorem correctToken_eq_of_lookup_none (t : List Char)
    (ha : isAlphaW t = true) (h : corrections.lookup (lowerW t) = none) :
    correctToken t =
      if fuzzyCorrect (lowerW t) = lowerW t then t
      else applyCase t (fuzzyCorrect (lowerW t)) := by
  unfold correctToken
  rw [if_pos ha, h]

theorem correctToken_out (t : List Char) :
    correctToken t = t ∨
      ∃ c ∈ cands, isAlphaW t = true ∧ correctToken t = applyCase t c := by
  by_cases ha : isAlphaW t = true
  · rcases hlk : corrections.lookup (lowerW t) with _ | c
    · rw [correctToken_eq_of_lookup_none t ha hlk]
      by_cases hfz : fuzzyCorrect (lowerW t) = lowerW t
      · rw [if_pos hfz]; left; rfl
      · rw [if_neg hfz]
        rcases fuzzyCorrect_mem (lowerW t) with h | h | h
        · exact absurd h hfz
        · right; exact ⟨_, List.mem_append.2 (Or.inl h), ha, rfl⟩
        · right; exact ⟨_, List.mem_append.2 (Or.inr h), ha, rfl⟩
    · rw [correctToken_eq_of_lookup_some t c ha hlk]
      right
      exact ⟨c, List.mem_append.2 (Or.inr (lookup_snd_mem _ _ _ hlk)), ha, rfl⟩
  · left
    unfold correctToken
    rw [if_neg ha]
